import Mathlib

/-!
Verification of a pattern-matching repository: a reversed Boyer-Moore matcher
(`boyer_moore.py`) built on a Z-algorithm, extended bad-character,
good-suffix and matched-prefix preprocessing, and a bit-parallel (Shift-Or)
matcher (`bitvector.py`).

The Python code is shallowly embedded: strings become `List Char`, Python
`list` indexing (including negative-index wraparound and `IndexError`)
becomes the `pyGet`/`pySet` primitives over `Option`, and every loop becomes
a structurally recursive function, so all embedded functions are executable
and kernel-reducible.  A Python run that raises `IndexError` is modelled as
the value `none`.
-/

/-- Python list index resolution: indices `0 ≤ i < len` are used directly,
`-len ≤ i < 0` wraps to `len + i`, anything else raises `IndexError`. -/
def pyIdx (len : Nat) (i : Int) : Option Nat :=
  if 0 ≤ i ∧ i < (len : Int) then some i.toNat
  else if -(len : Int) ≤ i ∧ i < 0 then some (i + len).toNat
  else none

/-- Python list read `xs[i]` (with negative-index wraparound). -/
def pyGet (xs : List α) (i : Int) : Option α := do
  let k ← pyIdx xs.length i
  xs.get? k

/-- Python list write `xs[i] = v` (with negative-index wraparound). -/
def pySet (xs : List α) (i : Int) (v : α) : Option (List α) := do
  let k ← pyIdx xs.length i
  pure (xs.set k v)

/-- `NAN = -1`, the sentinel used throughout `boyer_moore.py`. -/
def NAN : Int := -1

/-- Python `ord` restricted to the characters a Lean `Char` can hold. -/
def pyOrd (c : Char) : Int := (c.toNat : Int)

/-! ## `z_algorithm` (boyer_moore.py lines 8-77) -/

/-- The explicit-comparison inner loop of `z_algorithm`
(`for j in range(z_array[i], len(text) - 1): ...`), embedded with the number
of remaining loop iterations as a structural fuel argument.  `j` is the loop
variable, `zi` the current value of `z_array[i]`. -/
def zExtend (text : List Char) (i : Int) : Nat → Int → Int → Option Int
  | 0, _, zi => some zi
  | steps + 1, j, zi => do
    if i + zi ≥ (text.length : Int) then
      pure zi
    else
      let c1 ← pyGet text j
      let c2 ← pyGet text (i + zi)
      if c1 = c2 then
        zExtend text i steps (j + 1) (zi + 1)
      else
        pure zi

/-- One iteration of the main `for i in range(1, len(text))` loop of
`z_algorithm`.  State is `(l, r, z_array)`. -/
def zStep (text : List Char) (st : Int × Int × List Int) (i : Nat) :
    Option (Int × Int × List Int) := do
  let (l, r, zarr) := st
  let L := text.length
  -- the cases of `if i <= r` that `continue` directly
  if (i : Int) ≤ r then
    let offset_i : Int := (i : Int) - l
    let offset_i_zbox ← pyGet zarr offset_i
    let remaining_length : Int := r - (i : Int) + 1
    if offset_i_zbox = 0 then
      pure (l, r, zarr)
    else if offset_i_zbox < remaining_length then
      let zarr' ← pySet zarr (i : Int) offset_i_zbox
      pure (l, r, zarr')
    else if offset_i_zbox = remaining_length then
      let zarr' ← pySet zarr (i : Int) offset_i_zbox
      -- fall through to the explicit comparison loop
      let zi0 ← pyGet zarr' (i : Int)
      let zi ← zExtend text (i : Int) ((L : Int) - 1 - zi0).toNat zi0 zi0
      let zarr'' ← pySet zarr' (i : Int) zi
      let mismatch_point : Int := (i : Int) + zi
      if zi ≠ 0 ∧ mismatch_point > r then
        pure ((i : Int), mismatch_point - 1, zarr'')
      else
        pure (l, r, zarr'')
    else
      let zarr' ← pySet zarr (i : Int) remaining_length
      pure (l, r, zarr')
  else
    let zi0 ← pyGet zarr (i : Int)
    let zi ← zExtend text (i : Int) ((L : Int) - 1 - zi0).toNat zi0 zi0
    let zarr' ← pySet zarr (i : Int) zi
    let mismatch_point : Int := (i : Int) + zi
    if zi ≠ 0 ∧ mismatch_point > r then
      pure ((i : Int), mismatch_point - 1, zarr')
    else
      pure (l, r, zarr')

/-- `z_algorithm(text)` from boyer_moore.py.  Returns `none` exactly when the
Python function raises `IndexError` (which happens for the empty string, at
`z_array[0] = NAN`). -/
def z_algorithm (text : List Char) : Option (List Int) := do
  let zarr : List Int := List.replicate text.length 0
  let zarr ← pySet zarr 0 NAN
  let st ← (List.range' 1 (text.length - 1)).foldlM (zStep text) (0, 0, zarr)
  pure st.2.2

/-! ## `extended_bad_char` and `reversed_ext_bad_char` (lines 80-132) -/

def ASCII_SIZE : Nat := 128

/-- `extended_bad_char(pat)`: the 2-D bad character table, one 128-wide row
per pattern position.  Row `i` is row `i-1` with the cell for `pat[i-1]`
set to `i-1`. -/
def extended_bad_char (pat : List Char) : Option (List (List Int)) := do
  let init : List (List Int) := [List.replicate ASCII_SIZE NAN]
  (List.range' 1 (pat.length - 1)).foldlM
    (fun arr (i : Nat) => do
      let prev ← pyGet arr ((i : Int) - 1)
      let c ← pyGet pat ((i : Int) - 1)
      let row ← pySet prev (pyOrd c) ((i : Int) - 1)
      pure (arr ++ [row]))
    init

/-- `reversed_ext_bad_char(pat)`: the bad character table of the reversed
pattern, with rows re-reversed. -/
def reversed_ext_bad_char (pat : List Char) : Option (List (List Int)) := do
  let arr ← extended_bad_char pat.reverse
  pure arr.reverse

/-! ## `good_suffix` and `reversed_good_suffix` (lines 135-180) -/

/-- `good_suffix(pat)` from boyer_moore.py. -/
def good_suffix (pat : List Char) : Option (List Int) := do
  let z ← z_algorithm pat.reverse
  let z_suffix_array := z.reverse
  let m := pat.length
  let init : List Int := List.replicate (m + 1) NAN
  (List.range (m - 1)).foldlM
    (fun gs (i : Nat) => do
      let v ← pyGet z_suffix_array (i : Int)
      let j : Int := (m : Int) - v
      pySet gs j (i : Int))
    init

/-- `reversed_good_suffix(pat)` from boyer_moore.py. -/
def reversed_good_suffix (pat : List Char) : Option (List Int) := do
  let gp ← good_suffix pat.reverse
  pure gp.reverse

/-! ## `matched_prefix` and `reversed_matched_prefix` (lines 183-243)
(The Lean definitions carry an `_arr` suffix in their names.) -/

/-- `matched_prefix(pat)` from boyer_moore.py. -/
def matched_prefix_arr (pat : List Char) : Option (List Int) := do
  let z_matched_array ← z_algorithm pat
  let m := pat.length
  let init : List Int := List.replicate (m + 1) 0
  -- for i in range(m-1, -1, -1)
  let arr ← (List.range m).reverse.foldlM
    (fun arr (i : Nat) => do
      let zi ← pyGet z_matched_array (i : Int)
      if (i : Int) + zi = (m : Int) then
        pySet arr (i : Int) zi
      else do
        let v ← pyGet arr ((i : Int) + 1)
        pySet arr (i : Int) v)
    init
  pySet arr 0 (m : Int)

/-- `reversed_matched_prefix(pat)` from boyer_moore.py. -/
def reversed_matched_prefix_arr (pat : List Char) : Option (List Int) := do
  let a ← matched_prefix_arr pat.reverse
  pure a.reverse

/-! ## `reversed_boyer_moore` (lines 246-359) -/

/-- Outcome of one alignment of the inner scan loop of
`reversed_boyer_moore`: the shift amount, the new `(start, stop)` memo pair
and whether a full match was reported at this alignment. -/
structure BmStep where
  shift_amt : Int
  start : Int
  stop : Int
  matched : Bool
  deriving Repr, DecidableEq

/-- The mismatch branch of the inner scan loop (lines 313-357): given the
pattern pointer `p` and the mismatching text character `char_mismatch`,
compute the shift amount and the new memo pair. -/
def bmMismatch (pat : List Char) (bad_char_arr : List (List Int))
    (good_suffix_arr matched_prefix_arr_r : List Int)
    (p : Int) (char_mismatch : Char) : Option BmStep := do
  let m := pat.length
  let row ← pyGet bad_char_arr p
  let bc_index ← pyGet row (pyOrd char_mismatch)
  let bc_shift : Int := (m : Int) - 1 - bc_index - p
  let g ← pyGet good_suffix_arr p
  let gs_shiftO : Option Int :=
    if g = NAN then (pyGet matched_prefix_arr_r p).map (fun v => (m : Int) - v)
    else some ((m : Int) - 1 - g)
  let gs_shift ← gs_shiftO
  let shift_amt := max bc_shift gs_shift
  if (p - 1 = NAN ∧ bc_shift = gs_shift) ∨ bc_shift > gs_shift then
    if bc_index = NAN then
      pure ⟨shift_amt, NAN, NAN, false⟩
    else
      pure ⟨shift_amt, (m : Int) - 1 - bc_index, (m : Int) - 1 - bc_index, false⟩
  else if p - 1 ≠ NAN then
    if g = NAN then
      pure ⟨shift_amt, gs_shift, (m : Int) - 1, false⟩
    else
      let stop0 := gs_shift + p - 1
      pure ⟨shift_amt, gs_shift, if bc_shift = gs_shift then stop0 + 1 else stop0, false⟩
  else
    pure ⟨shift_amt, NAN, NAN, false⟩

/-- The full-match branch of the inner scan loop (lines 293-306). -/
def bmFullMatch (pat : List Char) (matched_prefix_arr_r : List Int) :
    Option BmStep := do
  let m := pat.length
  let mpm ← pyGet matched_prefix_arr_r (-2)
  let shift_amt := (m : Int) - mpm
  if mpm ≠ 0 then
    pure ⟨shift_amt, shift_amt, (m : Int) - 1, true⟩
  else
    pure ⟨shift_amt, NAN, NAN, true⟩

/-- The inner `while True` scan loop of `reversed_boyer_moore` (lines
289-358), with a structural fuel argument (the loop advances the pattern
pointer, so `2*m + 8` fuel is more than any reachable execution consumes). -/
def bmInner (text pat : List Char) (bad_char_arr : List (List Int))
    (good_suffix_arr matched_prefix_arr_r : List Int)
    (search_index_on_text : Int) :
    Nat → Int → Int → Int → Option BmStep
  | 0, _, _, _ => none
  | fuel + 1, p0, start, stop => do
    let m := pat.length
    let p := if p0 = start then stop + 1 else p0
    if p = (m : Int) then
      bmFullMatch pat matched_prefix_arr_r
    else do
      let tc ← pyGet text (search_index_on_text + p)
      let pc ← pyGet pat p
      if tc = pc then
        bmInner text pat bad_char_arr good_suffix_arr matched_prefix_arr_r
          search_index_on_text fuel (p + 1) start stop
      else
        bmMismatch pat bad_char_arr good_suffix_arr matched_prefix_arr_r
          p tc

/-- The outer `while True` loop of `reversed_boyer_moore` (lines 278-358),
with a structural fuel argument; the cursor `i` decreases by at least one
per alignment, so `n + 2` fuel always suffices. -/
def bmLoop (text pat : List Char) (bad_char_arr : List (List Int))
    (good_suffix_arr matched_prefix_arr_r : List Int) :
    Nat → Int → Int → Int → List Int → Option (List Int)
  | 0, _, _, _, _ => none
  | fuel + 1, i, start, stop, occurrence => do
    let m := pat.length
    let search_index_on_text := i - ((m : Int) - 1)
    if search_index_on_text < 0 then
      pure occurrence
    else do
      let step ← bmInner text pat bad_char_arr good_suffix_arr
        matched_prefix_arr_r search_index_on_text (2 * m + 8) 0 start stop
      let occurrence' :=
        if step.matched then occurrence ++ [search_index_on_text + 1]
        else occurrence
      bmLoop text pat bad_char_arr good_suffix_arr matched_prefix_arr_r
        fuel (i - step.shift_amt) step.start step.stop occurrence'

/-- `reversed_boyer_moore(text, pat)` from boyer_moore.py.  `none` models a
run that raises `IndexError`. -/
def reversed_boyer_moore (text pat : List Char) : Option (List Int) := do
  let n := text.length
  let bad_char_arr ← reversed_ext_bad_char pat
  let good_suffix_arr ← reversed_good_suffix pat
  let matched_prefix_arr_r ← reversed_matched_prefix_arr pat
  bmLoop text pat bad_char_arr good_suffix_arr matched_prefix_arr_r
    (n + 2) ((n : Int) - 1) NAN NAN []

/-! ## `bitvector_pat_match` (bitvector.py lines 6-43) -/

/-- The `for j in range(m)` loop populating `delta`:
`delta[j] = text[i] != pat[m-1-j]`. -/
def delta_row (pat : List Char) (c : Char) : Option (List Bool) :=
  (List.range pat.length).mapM (fun (j : Nat) => do
    let pc ← pyGet pat ((pat.length : Int) - 1 - (j : Int))
    pure (decide (c ≠ pc)))

/-- `bitarray` left shift by one: bits move towards index 0, a zero bit is
shifted in at the high end. -/
def shl1 (bv : List Bool) : List Bool :=
  match bv with
  | [] => []
  | _ :: t => t ++ [false]

/-- `bitvector_pat_match(text, pat)` from bitvector.py.  `none` models a run
that raises `IndexError` (empty pattern with non-empty text). -/
def bitvector_pat_match (text pat : List Char) : Option (List Int) := do
  let m := pat.length
  let n := text.length
  let bv : List Bool := List.replicate m true
  let st ← (List.range n).foldlM
    (fun (st : List Bool × List Int) (i : Nat) => do
      let (bv, occurrences) := st
      let c ← pyGet text (i : Int)
      let delta ← delta_row pat c
      let bv' := (shl1 bv).zipWith or delta
      let b0 ← pyGet bv' 0
      let occurrences' :=
        if b0 = false then occurrences ++ [((i : Int) + 1) - (m : Int) + 1]
        else occurrences
      pure (bv', occurrences'))
    (bv, [])
  pure st.2

/-! ## Specification-side definitions -/

/-- Brute-force occurrence list, following the claims' words: the list of
all 0-based indices `i` with `T[i..i+|P|) = P`, in ascending order. -/
def occurrencesSpec (text pat : List Char) : List Nat :=
  (List.range (text.length + 1)).filter
    (fun i => decide (i + pat.length ≤ text.length) &&
      decide ((text.drop i).take pat.length = pat))

/-! ## Basic lemmas about the Python list primitives -/

theorem pyGet_ofNat (xs : List α) (k : Nat) : pyGet xs (k : Int) = xs.get? k := by
  unfold pyGet pyIdx
  by_cases h : k < xs.length
  · rw [if_pos ⟨Int.ofNat_nonneg k, by exact_mod_cast h⟩]
    simp
  · rw [if_neg, if_neg]
    · exact (List.get?_eq_none.2 (by omega)).symm
    · intro hc
      omega
    · intro hc
      exact h (by exact_mod_cast hc.2)

theorem pySet_ofNat_lt (xs : List α) (k : Nat) (v : α) (h : k < xs.length) :
    pySet xs (k : Int) v = some (xs.set k v) := by
  unfold pySet pyIdx
  rw [if_pos ⟨Int.ofNat_nonneg k, by exact_mod_cast h⟩]
  simp

theorem pyGet_neg (xs : List α) (k : Nat) (h1 : 0 < k) (h2 : k ≤ xs.length) :
    pyGet xs (-(k : Int)) = xs.get? (xs.length - k) := by
  unfold pyGet pyIdx
  rw [if_neg (by omega), if_pos ⟨by omega, by omega⟩]
  have : (-(k : Int) + xs.length).toNat = xs.length - k := by omega
  rw [this]
  simp

theorem pyGet_zero_cons (a : α) (l : List α) : pyGet (a :: l) 0 = some a := by
  have := pyGet_ofNat (a :: l) 0
  simpa using this

set_option maxRecDepth 10000

/-! ## One-step equation lemmas for the scan loops -/

theorem bmLoop_succ (text pat : List Char) (bc : List (List Int)) (gs mp : List Int)
    (fuel : Nat) (i start stop : Int) (occ : List Int) :
    bmLoop text pat bc gs mp (fuel + 1) i start stop occ =
      (if i - ((pat.length : Int) - 1) < 0 then some occ else do
        let step ← bmInner text pat bc gs mp (i - ((pat.length : Int) - 1))
          (2 * pat.length + 8) 0 start stop
        bmLoop text pat bc gs mp fuel (i - step.shift_amt) step.start step.stop
          (if step.matched then occ ++ [i - ((pat.length : Int) - 1) + 1] else occ)) := rfl

theorem bmInner_succ (text pat : List Char) (bc : List (List Int)) (gs mp : List Int)
    (sidx : Int) (fuel : Nat) (p0 start stop : Int) :
    bmInner text pat bc gs mp sidx (fuel + 1) p0 start stop =
      (let p := if p0 = start then stop + 1 else p0
       if p = (pat.length : Int) then
         bmFullMatch pat mp
       else do
         let tc ← pyGet text (sidx + p)
         let pc ← pyGet pat p
         if tc = pc then
           bmInner text pat bc gs mp sidx fuel (p + 1) start stop
         else
           bmMismatch pat bc gs mp p tc) := rfl

/-! ## Helper facts about degenerate inputs -/

/-- An empty pattern makes `reversed_boyer_moore` fail while building
`good_suffix` (which calls `z_algorithm` on the empty string), for any text. -/
theorem bm_empty_pat (T : List Char) : reversed_boyer_moore T [] = none := rfl

/-- An empty pattern makes `bitvector_pat_match` fail at `bitvector[0]` on
the first text character. -/
theorem bv_cons_empty_pat (c : Char) (T : List Char) :
    bitvector_pat_match (c :: T) [] = none := by
  simp only [bitvector_pat_match, List.length_cons, List.length_nil,
    List.range_succ_eq_map, List.foldlM_cons, pyGet_zero_cons]
  simp [delta_row, shl1, pyGet, pyIdx]

theorem delta_row_single (d c : Char) : delta_row [d] c = some [decide (c ≠ d)] := by
  have hr : List.range 1 = [0] := rfl
  have h0 : ((1 : Nat) : Int) - 1 - ((0 : Nat) : Int) = 0 := by norm_num
  simp [delta_row, hr, h0, pyGet_zero_cons, List.mapM.loop, neg_zero]

theorem bv_single_mismatch (c d : Char) (h : c ≠ d) :
    bitvector_pat_match [c] [d] = some [] := by
  have hr : List.range 1 = [0] := rfl
  simp only [bitvector_pat_match, List.length_cons, List.length_nil, hr,
    List.foldlM_cons, List.foldlM_nil, pyGet_zero_cons, delta_row_single]
  simp [shl1, pyGet, pyIdx, h]

/-- A single out-of-alphabet text character against a single in-alphabet
pattern character makes `reversed_boyer_moore` index the 128-entry
bad-character row out of bounds. -/
theorem bm_single_oob (c d : Char) (hc : 128 ≤ c.toNat) (hd : d.toNat < 128) :
    reversed_boyer_moore [c] [d] = none := by
  have hne : c ≠ d := fun h => by subst h; omega
  have hrow : ∀ (xs : List Int), xs.length = 128 → pyGet xs (pyOrd c) = none := by
    intro xs hlen
    unfold pyGet pyIdx pyOrd
    rw [hlen]
    rw [if_neg (by omega), if_neg (by omega)]
    rfl
  have hbc : reversed_ext_bad_char [d] = some [List.replicate 128 NAN] := rfl
  have hgs : reversed_good_suffix [d] = some [NAN, NAN] := rfl
  have hmp : reversed_matched_prefix_arr [d] = some [0, 1] := rfl
  unfold reversed_boyer_moore
  rw [hbc, hgs, hmp]
  show bmLoop [c] [d] [List.replicate 128 NAN] [NAN, NAN] [0, 1] (2 + 1) 0 NAN NAN [] = none
  rw [bmLoop_succ]
  rw [if_neg (by norm_num)]
  show (bmInner [c] [d] [List.replicate 128 NAN] [NAN, NAN] [0, 1] 0 (9 + 1) 0 NAN NAN).bind _ = none
  rw [bmInner_succ]
  simp only [NAN]
  rw [if_neg (by norm_num)]
  rw [if_neg (by norm_num)]
  have htc : pyGet [c] (0 + 0) = some c := by norm_num [pyGet_zero_cons]
  have hpc : pyGet [d] (0 : Int) = some d := pyGet_zero_cons d []
  rw [htc, hpc]
  simp [hne, hrow, pyGet_zero_cons, bmMismatch, NAN]

/-! ## Claims -/

/-- C1: the claim states that for every non-empty ASCII pattern and text,
`reversed_boyer_moore` and `bitvector_pat_match` return identical ascending
occurrence sequences equal to brute-force 0-based scanning.  The code
violates this: on text `"aab"` and pattern `"aa"` the brute-force
occurrence list is `[0]`, but `reversed_boyer_moore` raises `IndexError`
(the Galil memo is set to `(start, stop) = (1, 2)` with `stop = m`, so the
next alignment jumps the pattern pointer to `3 > m` and indexes `text[3]`
out of bounds), while `bitvector_pat_match` returns `[1]` (the 0-based
index plus one). -/
theorem c1_bm_crashes_and_conventions_differ :
    occurrencesSpec "aab".toList "aa".toList = [0] ∧
    reversed_boyer_moore "aab".toList "aa".toList = none ∧
    bitvector_pat_match "aab".toList "aa".toList = some [1] :=
  ⟨by decide, by decide, by decide⟩

/-- C2: the claim states that the memoized `(start, stop)` skip range only
covers pattern positions already known to equal the aligned text and never
changes which alignments are reported.  The code violates this: on text
`"baab"` and pattern `"aa"`, the mismatch at the first alignment stores the
memo `(start, stop) = (1, 2)` where `stop = 2 = m` lies outside the pattern,
so at the next alignment the scan jumps the pointer from `start` to
`stop + 1 = 3`, skips the `p = m` full-match test, and raises `IndexError` —
the genuine occurrence at 0-based index 1 is never reported. -/
theorem c2_memo_skip_breaks_scan :
    occurrencesSpec "baab".toList "aa".toList = [1] ∧
    reversed_boyer_moore "baab".toList "aa".toList = none :=
  ⟨by decide, by decide⟩

/-- C4 (counterexample): neither matcher returns `[0, 4]` on text
`"ABAAABCD"` and pattern `"AB"`. -/
theorem c4_counterexample :
    ¬ (reversed_boyer_moore "ABAAABCD".toList "AB".toList = some [0, 4] ∨
       bitvector_pat_match "ABAAABCD".toList "AB".toList = some [0, 4]) := by
  decide

/-- C4 (amended): on text `"ABAAABCD"` and pattern `"AB"`,
`reversed_boyer_moore` returns `[5, 1]` (each 0-based occurrence index plus
one, in descending scan order) and `bitvector_pat_match` returns `[1, 5]`
(each 0-based occurrence index plus one, ascending). -/
theorem c4_amended :
    reversed_boyer_moore "ABAAABCD".toList "AB".toList = some [5, 1] ∧
    bitvector_pat_match "ABAAABCD".toList "AB".toList = some [1, 5] :=
  ⟨by decide, by decide⟩

/-- C7 (counterexample): `z_algorithm` does not return the empty array on
the empty string — it raises `IndexError` (modelled as `none`) at the
unguarded `z_array[0] = NAN` assignment. -/
theorem c7_counterexample : z_algorithm ([] : List Char) ≠ some [] := by decide

/-- C7 (amended): the empty pattern is not explicitly rejected anywhere.
`z_algorithm` on the empty string raises `IndexError` instead of returning
`[]`; `reversed_boyer_moore` with an empty pattern raises `IndexError`
inside `good_suffix` for every text; `bitvector_pat_match` with an empty
pattern raises `IndexError` at `bitvector[0]` for every non-empty text, and
silently returns `[]` for the empty text.  No `InvalidPattern` validation
error exists in the code. -/
theorem c7_amended :
    z_algorithm ([] : List Char) = none ∧
    (∀ T : List Char, reversed_boyer_moore T [] = none) ∧
    (∀ (c : Char) (T : List Char), bitvector_pat_match (c :: T) [] = none) ∧
    bitvector_pat_match [] [] = some [] :=
  ⟨by decide, fun T => bm_empty_pat T, fun c T => bv_cons_empty_pat c T, by decide⟩

/-- C8 (counterexample): no up-front alphabet validation exists.  With text
`"¡"` (code point 161) and pattern `"a"`, `reversed_boyer_moore` raises
`IndexError` by indexing the 128-entry bad-character row with the raw
code point — exactly what the claim says is prevented — while
`bitvector_pat_match` reports no error at all on the same input, and even
matches a non-ASCII pattern (`"¡"` in `"¡"`) without any `AlphabetError`. -/
theorem c8_counterexample :
    reversed_boyer_moore ['¡'] "a".toList = none ∧
    bitvector_pat_match ['¡'] "a".toList = some [] ∧
    bitvector_pat_match ['¡'] ['¡'] = some [1] :=
  ⟨by decide, by decide, by decide⟩

/-- C8 (amended): there is no up-front alphabet validation and no
`AlphabetError`.  For every text symbol `c` with code point ≥ 128 and
pattern symbol `d` with code point < 128, `reversed_boyer_moore` on the
single-character text and pattern fails with an `IndexError` by indexing
the 128-entry bad-character row with the raw code point of `c`, while
`bitvector_pat_match` accepts the same input and returns the correct empty
occurrence list without reporting any error. -/
theorem c8_amended (c d : Char) (hc : 128 ≤ c.toNat) (hd : d.toNat < 128) :
    reversed_boyer_moore [c] [d] = none ∧
    bitvector_pat_match [c] [d] = some [] :=
  ⟨bm_single_oob c d hc hd,
   bv_single_mismatch c d (fun h => by subst h; omega)⟩

theorem c8_amended_witness :
    reversed_boyer_moore ['¡'] ['a'] = none ∧
    bitvector_pat_match ['¡'] ['a'] = some [] :=
  c8_amended '¡' 'a' (by decide) (by decide)

/-- C9 (counterexample): a pattern longer than the text does not always
yield an empty occurrence sequence without error: with text `"a"` and the
length-2 pattern `"¡¡"`, `reversed_boyer_moore` raises `IndexError` while
building the bad-character table (`ord` of the non-ASCII symbol indexes the
128-entry row out of bounds) before the length comparison is ever
reached. -/
theorem c9_counterexample :
    "a".toList.length < (['¡', '¡'] : List Char).length ∧
    reversed_boyer_moore "a".toList ['¡', '¡'] = none :=
  ⟨by decide, by decide⟩

/-! ## Generic machinery: invariants of `Option`-valued folds -/

theorem foldlM_some_inv {σ β : Type} (f : σ → β → Option σ) (P : σ → Prop) :
    ∀ (l : List β), (∀ s b s', b ∈ l → P s → f s b = some s' → P s') →
      ∀ (s s' : σ), P s → l.foldlM f s = some s' → P s'
  | [], _, s, s', hP, h => by
    simp only [List.foldlM_nil] at h
    rw [show (pure s : Option σ) = some s from rfl] at h
    cases h
    exact hP
  | b :: t, hstep, s, s', hP, h => by
    simp only [List.foldlM_cons] at h
    cases hfb : f s b with
    | none => rw [hfb] at h; exact absurd h (by simp)
    | some s1 =>
      rw [hfb] at h
      exact foldlM_some_inv f P t
        (fun s b s' hb => hstep s b s' (List.mem_cons_of_mem _ hb))
        s1 s' (hstep s b s1 (List.mem_cons_self b t) hP hfb) h

theorem foldlM_some_length {σ : Type} (f : List σ → β → Option (List σ))
    (hstep : ∀ s b s', f s b = some s' → s'.length = s.length + 1) :
    ∀ (l : List β) (s s' : List σ), l.foldlM f s = some s' →
      s'.length = s.length + l.length
  | [], s, s', h => by
    simp only [List.foldlM_nil] at h
    rw [show (pure s : Option (List σ)) = some s from rfl] at h
    cases h
    simp
  | b :: t, s, s', h => by
    simp only [List.foldlM_cons] at h
    cases hfb : f s b with
    | none => rw [hfb] at h; exact absurd h (by simp)
    | some s1 =>
      rw [hfb] at h
      have := foldlM_some_length f hstep t s1 s' h
      rw [this, hstep s b s1 hfb, List.length_cons]
      omega

/-! ## More lemmas about the Python list primitives -/

theorem pyGet_nonneg (xs : List α) (k : Int) (h0 : 0 ≤ k) :
    pyGet xs k = xs.get? k.toNat := by
  unfold pyGet pyIdx
  by_cases h : k < (xs.length : Int)
  · rw [if_pos ⟨h0, h⟩]; simp
  · rw [if_neg (by omega), if_neg (by omega)]
    exact (List.get?_eq_none.2 (by omega)).symm

theorem pySet_length (xs : List α) (i : Int) (v : α) (ys : List α)
    (h : pySet xs i v = some ys) : ys.length = xs.length := by
  unfold pySet pyIdx at h
  split at h
  · simp at h
    cases h; simp
  · split at h
    · simp at h
      cases h; simp
    · exact absurd h (by simp)

theorem pySet_mem (xs : List α) (i : Int) (v : α) (ys : List α)
    (h : pySet xs i v = some ys) : ∀ a ∈ ys, a ∈ xs ∨ a = v := by
  unfold pySet pyIdx at h
  split at h
  · simp at h
    cases h
    intro a ha
    exact List.mem_or_eq_of_mem_set ha
  · split at h
    · simp at h
      cases h
      intro a ha
      exact List.mem_or_eq_of_mem_set ha
    · exact absurd h (by simp)

theorem pyGet_mem (xs : List α) (i : Int) (a : α) (h : pyGet xs i = some a) :
    a ∈ xs := by
  unfold pyGet pyIdx at h
  split at h
  · simp at h
    rw [← List.get?_eq_getElem?] at h
    exact List.get?_mem h
  · split at h
    · simp at h
      rw [← List.get?_eq_getElem?] at h
      exact List.get?_mem h
    · exact absurd h (by simp)

theorem pyGet_lt_length (xs : List α) (k : Int) (a : α) (h0 : 0 ≤ k)
    (h : pyGet xs k = some a) : k < (xs.length : Int) := by
  rw [pyGet_nonneg xs k h0] at h
  obtain ⟨hlt, -⟩ := List.get?_eq_some.1 h
  omega

theorem pySet_get? (xs : List α) (i : Int) (v : α) (ys : List α) (h0 : 0 ≤ i)
    (h : pySet xs i v = some ys) :
    ys.get? i.toNat = some v ∧ ∀ j : Nat, (j : Int) ≠ i → ys.get? j = xs.get? j := by
  unfold pySet pyIdx at h
  by_cases hlt : i < (xs.length : Int)
  · rw [if_pos ⟨h0, hlt⟩] at h
    simp at h
    subst h
    constructor
    · rw [List.get?_eq_getElem?, List.getElem?_set_self']
      rw [List.getElem?_eq_getElem (by omega)]
      rfl
    · intro j hj
      rw [List.get?_eq_getElem?, List.get?_eq_getElem?, List.getElem?_set_ne]
      omega
  · rw [if_neg (by omega), if_neg (by omega)] at h
    exact absurd h (by simp)

/-- Destructuring of a successful `Option` bind. -/
theorem bindSome {α β : Type} {a : Option α} {f : α → Option β} {b : β}
    (h : (a >>= f) = some b) : ∃ x, a = some x ∧ f x = some b := by
  cases a with
  | none => simp at h
  | some x => exact ⟨x, rfl, by simpa using h⟩

/-! ## Structural bounds for the preprocessing tables -/

/-- Every row of `extended_bad_char` has 128 cells and every cell of row `q`
holds a value `≤ q - 1` (a position strictly before `q`, or `NAN`). -/
theorem ebc_inv (pat : List Char) (T : List (List Int))
    (h : extended_bad_char pat = some T) :
    T.length = 1 + (pat.length - 1) ∧
      ∀ q row, T.get? q = some row → row.length = 128 ∧
        ∀ e ∈ row, e ≤ (q : Int) - 1 := by
  unfold extended_bad_char at h
  constructor
  · have := foldlM_some_length _
      (fun s b s' hf => by
        obtain ⟨prev, hb1, hf⟩ := bindSome hf
        obtain ⟨c, hb2, hf⟩ := bindSome hf
        obtain ⟨row, hb3, hf⟩ := bindSome hf
        simp at hf
        rw [← hf]
        simp)
      _ _ _ h
    rw [this]
    simp
  · refine foldlM_some_inv _
      (fun (s : List (List Int)) => ∀ q row, s.get? q = some row → row.length = 128 ∧
        ∀ e ∈ row, e ≤ (q : Int) - 1) _ ?_ _ _ ?_ h
    · intro s b s' hb hP hf
      have hb1' : 1 ≤ b := by
        have := List.mem_range'_1.1 hb
        omega
      obtain ⟨prev, hb1, hf⟩ := bindSome hf
      obtain ⟨c, hb2, hf⟩ := bindSome hf
      obtain ⟨row, hb3, hf⟩ := bindSome hf
      simp at hf
      subst hf
      -- prev is row (b-1) of s, so its entries are ≤ b - 2
      have hprevidx : s.get? ((b : Int) - 1).toNat = some prev := by
        rw [← pyGet_nonneg s ((b : Int) - 1) (by omega)]
        exact hb1
      obtain ⟨hprevlen, hprevbound⟩ := hP _ _ hprevidx
      have hblen : (b : Int) - 1 < (s.length : Int) :=
        pyGet_lt_length s ((b : Int) - 1) prev (by omega) hb1
      have hrowlen : row.length = 128 := by
        rw [pySet_length prev (pyOrd c) ((b : Int) - 1) row hb3, hprevlen]
      have hrowbound : ∀ e ∈ row, e ≤ (b : Int) - 1 := by
        intro e he
        rcases pySet_mem prev (pyOrd c) ((b : Int) - 1) row hb3 e he with hmem | hval
        · have h1 := hprevbound e hmem
          have h2 : ((((b : Int) - 1).toNat : Int)) = (b : Int) - 1 := by omega
          omega
        · omega
      intro q rowq hq
      by_cases hqlt : q < s.length
      · rw [List.get?_append hqlt] at hq
        exact hP q rowq hq
      · have hqeq : q = s.length := by
          by_contra hne
          rw [List.get?_eq_none.2 (by simp; omega)] at hq
          exact absurd hq (by simp)
        subst hqeq
        rw [List.get?_concat_length] at hq
        cases hq
        refine ⟨hrowlen, fun e he => ?_⟩
        have h3 := hrowbound e he
        omega
    · intro q row hq
      cases q with
      | zero =>
        simp at hq
        subst hq
        refine ⟨by simp [ASCII_SIZE], fun e he => ?_⟩
        simp [NAN] at he
        omega
      | succ q' => simp at hq

/-- Rows of `reversed_ext_bad_char pat`: row `p` holds only values
`≤ |pat| - 2 - p` (so the bad-character shift `m - 1 - value - p` is `≥ 1`). -/
theorem rebc_bound (pat : List Char) (bc : List (List Int))
    (h : reversed_ext_bad_char pat = some bc) (hm : 1 ≤ pat.length) :
    bc.length = pat.length ∧
      ∀ p row, bc.get? p = some row → row.length = 128 ∧
        ∀ e ∈ row, e ≤ (pat.length : Int) - 2 - p := by
  unfold reversed_ext_bad_char at h
  obtain ⟨T, hT, h2⟩ := bindSome h
  simp at h2
  subst h2
  obtain ⟨hlen, hrows⟩ := ebc_inv pat.reverse T hT
  rw [List.length_reverse] at hlen
  have hTlen : T.length = pat.length := by omega
  refine ⟨by simp [hTlen], fun p row hp => ?_⟩
  have hplt : p < T.length := by
    by_contra hge
    rw [List.get?_eq_none.2 (by simp; omega)] at hp
    exact absurd hp (by simp)
  rw [List.get?_eq_getElem?, List.getElem?_reverse (by omega),
    ← List.get?_eq_getElem?] at hp
  obtain ⟨hrlen, hrbound⟩ := hrows _ _ hp
  refine ⟨hrlen, fun e he => ?_⟩
  have := hrbound e he
  omega

/-- Entries of `matched_prefix_arr Q`: the array has length `|Q| + 1` and
entry `j` is at most `|Q| - j`. -/
theorem mp_bound (Q : List Char) (a : List Int) (h : matched_prefix_arr Q = some a) :
    a.length = Q.length + 1 ∧ ∀ j v, a.get? j = some v → v ≤ (Q.length : Int) - j := by
  unfold matched_prefix_arr at h
  obtain ⟨z, hz, h⟩ := bindSome h
  obtain ⟨arr, harr, h⟩ := bindSome h
  have hinv := foldlM_some_inv _
    (fun (s : List Int) => s.length = Q.length + 1 ∧
      ∀ j v, s.get? j = some v → v ≤ (Q.length : Int) - j)
    ((List.range Q.length).reverse) ?_ _ _ ?_ harr
  · obtain ⟨hlen, hbound⟩ := hinv
    have hlen' : a.length = Q.length + 1 := by
      rw [pySet_length arr 0 ((Q.length : Nat) : Int) a h]
      exact hlen
    refine ⟨hlen', fun j v hj => ?_⟩
    obtain ⟨hset0, hsetne⟩ := pySet_get? arr 0 _ a (by omega) h
    by_cases hj0 : j = 0
    · subst hj0
      rw [show ((0 : Int)).toNat = 0 from rfl] at hset0
      rw [hset0] at hj
      cases hj
      omega
    · rw [hsetne j (by omega)] at hj
      exact hbound j v hj
  · intro s b s' hb hP hf
    have hblt : b < Q.length := by
      rw [List.mem_reverse, List.mem_range] at hb
      exact hb
    obtain ⟨hlen, hbound⟩ := hP
    obtain ⟨zi, hzi, hf⟩ := bindSome hf
    split at hf
    next hcond =>
      -- i + z[i] = m: entry i gets z[i] = m - i
      have hslen : s'.length = s.length := pySet_length _ _ _ _ hf
      obtain ⟨hset, hsetne⟩ := pySet_get? s (b : Int) zi s' (by omega) hf
      refine ⟨by omega, fun j v hj => ?_⟩
      by_cases hjb : j = b
      · rw [show ((b : Int)).toNat = b by omega] at hset
        rw [hjb] at hj
        rw [hset] at hj
        cases hj
        omega
      · rw [hsetne j (by omega)] at hj
        exact hbound j v hj
    next hcond =>
      -- copy entry i+1
      obtain ⟨v0, hv0, hf⟩ := bindSome hf
      have hv0' : s.get? ((b : Int) + 1).toNat = some v0 := by
        rw [← pyGet_nonneg s ((b : Int) + 1) (by omega)]
        exact hv0
      have hv0b := hbound _ _ hv0'
      have hslen : s'.length = s.length := pySet_length _ _ _ _ hf
      obtain ⟨hset, hsetne⟩ := pySet_get? s (b : Int) v0 s' (by omega) hf
      refine ⟨by omega, fun j v hj => ?_⟩
      by_cases hjb : j = b
      · rw [show ((b : Int)).toNat = b by omega] at hset
        rw [hjb] at hj
        rw [hset] at hj
        cases hj
        have hcast : (((b : Int) + 1).toNat : Int) = (b : Int) + 1 := by omega
        omega
      · rw [hsetne j (by omega)] at hj
        exact hbound j v hj
  · refine ⟨by simp, fun j v hj => ?_⟩
    have hjlt : j < Q.length + 1 := by
      by_contra hge
      rw [List.get?_eq_none.2 (by simp; omega)] at hj
      exact absurd hj (by simp)
    rw [List.get?_eq_getElem?, List.getElem?_replicate, if_pos (by omega)] at hj
    cases hj
    omega

/-- C3: every shift amount computed by `reversed_boyer_moore` is at least 1:
the full-match shift `m - matched_prefix_arr[-2]` (computed by
`bmFullMatch`) and the mismatch shift `max(bc_shift, gs_shift)` (computed by
`bmMismatch`, for any pattern pointer `0 ≤ p < m` and any mismatching
character) — hence the cursor `i` strictly decreases at every alignment and
the right-to-left scan cannot stall. -/
theorem c3_shift_amounts_at_least_one (pat : List Char)
    (bc : List (List Int)) (gs mp : List Int)
    (hbc : reversed_ext_bad_char pat = some bc)
    (hmp : reversed_matched_prefix_arr pat = some mp) :
    (∀ step, bmFullMatch pat mp = some step → 1 ≤ step.shift_amt) ∧
    (∀ (p : Int) (c : Char) (step), 0 ≤ p → p < (pat.length : Int) →
      bmMismatch pat bc gs mp p c = some step → 1 ≤ step.shift_amt) := by
  have hm1 : 1 ≤ pat.length := by
    rcases pat with _ | ⟨c0, t⟩
    · rw [show reversed_matched_prefix_arr [] = none from rfl] at hmp
      exact absurd hmp (by simp)
    · simp
  -- facts about the reversed matched-prefix array
  unfold reversed_matched_prefix_arr at hmp
  obtain ⟨a, ha, h2⟩ := bindSome hmp
  simp at h2
  subst h2
  obtain ⟨halen, habound⟩ := mp_bound pat.reverse a ha
  rw [List.length_reverse] at halen habound
  constructor
  · intro step hstep
    unfold bmFullMatch at hstep
    obtain ⟨mpm, hmpm, hf⟩ := bindSome hstep
    have hmpm' : a.get? 1 = some mpm := by
      rw [show (-2 : Int) = -(((2 : Nat)) : Int) from rfl] at hmpm
      rw [pyGet_neg a.reverse 2 (by omega) (by simp; omega)] at hmpm
      rw [List.length_reverse, halen] at hmpm
      rw [List.get?_eq_getElem?,
        List.getElem?_reverse (by simp; omega), ← List.get?_eq_getElem?] at hmpm
      rw [show a.length - 1 - (pat.length + 1 - 2) = 1 by omega] at hmpm
      exact hmpm
    have hbound := habound 1 mpm hmpm'
    have hshift : step.shift_amt = (pat.length : Int) - mpm := by
      split at hf <;> (cases hf; rfl)
    rw [hshift]
    omega
  · intro p c step hp0 hplt hstep
    unfold bmMismatch at hstep
    obtain ⟨row, hrow, hf⟩ := bindSome hstep
    obtain ⟨e, he, hf⟩ := bindSome hf
    obtain ⟨g, hg, hf⟩ := bindSome hf
    obtain ⟨gsv, hgsv, hf⟩ := bindSome hf
    have hrow' : bc.get? p.toNat = some row := by
      rw [← pyGet_nonneg bc p hp0]
      exact hrow
    obtain ⟨-, hrowbound⟩ := (rebc_bound pat bc hbc hm1).2 p.toNat row hrow'
    have hemem : e ∈ row := pyGet_mem row (pyOrd c) e he
    have hebound := hrowbound e hemem
    have hcast : ((p.toNat : Nat) : Int) = p := by omega
    have hbcshift : 1 ≤ (pat.length : Int) - 1 - e - p := by omega
    have hshift : step.shift_amt = max ((pat.length : Int) - 1 - e - p) gsv := by
      split at hf
      · split at hf <;> (cases hf; rfl)
      · split at hf
        · split at hf <;> (cases hf; rfl)
        · cases hf; rfl
    rw [hshift]
    exact le_trans hbcshift (le_max_left _ _)


theorem c3_witness :
    bmFullMatch "ab".toList [0, 0, 2] = some ⟨2, NAN, NAN, true⟩ ∧
    1 ≤ (⟨2, NAN, NAN, true⟩ : BmStep).shift_amt ∧
    bmMismatch "ab".toList [(List.replicate 128 NAN).set 98 0, List.replicate 128 NAN]
      [0, NAN, NAN] [0, 0, 2] 0 'b' = some ⟨1, 1, 1, false⟩ ∧
    1 ≤ (⟨1, 1, 1, false⟩ : BmStep).shift_amt :=
  ⟨by decide,
   (c3_shift_amounts_at_least_one "ab".toList
      [(List.replicate 128 NAN).set 98 0, List.replicate 128 NAN]
      [0, NAN, NAN] [0, 0, 2] (by decide) (by decide)).1 _ (by decide),
   by decide,
   (c3_shift_amounts_at_least_one "ab".toList
      [(List.replicate 128 NAN).set 98 0, List.replicate 128 NAN]
      [0, NAN, NAN] [0, 0, 2] (by decide) (by decide)).2 0 'b' _
      (by norm_num) (by decide) (by decide)⟩

/-! ## Correctness of `bitvector_pat_match` (C10) -/

theorem concat_suffix_concat {α : Type} (X Y : List α) (x y : α) :
    (X ++ [x]) <:+ (Y ++ [y]) ↔ x = y ∧ X <:+ Y := by
  rw [← List.reverse_prefix]
  simp only [List.reverse_append, List.reverse_cons, List.reverse_nil,
    List.nil_append, List.singleton_append]
  rw [List.cons_prefix_cons, List.reverse_prefix]

theorem mapM_option_spec {α β : Type} (f : α → Option β) :
    ∀ (l : List α) (r : List β), l.mapM f = some r →
      r.length = l.length ∧
      ∀ j a, l.get? j = some a → ∃ b, f a = some b ∧ r.get? j = some b
  | [], r, h => by
    rw [List.mapM_nil] at h
    rw [show (pure [] : Option (List β)) = some [] from rfl] at h
    cases h
    exact ⟨rfl, by intro j a ha; simp at ha⟩
  | x :: t, r, h => by
    rw [List.mapM_cons] at h
    obtain ⟨b, hb, h⟩ := bindSome h
    obtain ⟨bs, hbs, h⟩ := bindSome h
    simp at h
    subst h
    obtain ⟨hlen, hrest⟩ := mapM_option_spec f t bs hbs
    refine ⟨by simp [hlen], ?_⟩
    intro j a ha
    cases j with
    | zero =>
      simp at ha
      subst ha
      exact ⟨b, hb, rfl⟩
    | succ j' =>
      simp at ha ⊢
      obtain ⟨bb, hbb1, hbb2⟩ := hrest j' a (by simpa using ha)
      exact ⟨bb, hbb1, by simpa using hbb2⟩

theorem mapM_option_total {α β : Type} (f : α → Option β) :
    ∀ (l : List α), (∀ a ∈ l, ∃ b, f a = some b) → ∃ r, l.mapM f = some r
  | [], _ => ⟨[], by rw [List.mapM_nil]; rfl⟩
  | x :: t, h => by
    obtain ⟨b, hb⟩ := h x (List.mem_cons_self x t)
    obtain ⟨bs, hbs⟩ := mapM_option_total f t (fun a ha => h a (List.mem_cons_of_mem _ ha))
    refine ⟨b :: bs, ?_⟩
    rw [List.mapM_cons, hb, hbs]
    rfl

theorem delta_row_spec (P : List Char) (c : Char) :
    ∃ δ, delta_row P c = some δ ∧ δ.length = P.length ∧
      ∀ j pc, j < P.length → P.get? (P.length - 1 - j) = some pc →
        δ.get? j = some (decide (c ≠ pc)) := by
  have hpy : ∀ j : Nat, j < P.length → ∀ pc, P.get? (P.length - 1 - j) = some pc →
      pyGet P ((P.length : Int) - 1 - (j : Int)) = some pc := by
    intro j hj pc hpc
    rw [pyGet_nonneg P _ (by omega)]
    rw [show ((P.length : Int) - 1 - (j : Int)).toNat = P.length - 1 - j by omega]
    exact hpc
  obtain ⟨δ, hδ⟩ := mapM_option_total
    (fun j : Nat => do
      let pc ← pyGet P ((P.length : Int) - 1 - (j : Int))
      pure (decide (c ≠ pc)))
    (List.range P.length)
    (fun j hj => by
      rw [List.mem_range] at hj
      have hidx : P.get? (P.length - 1 - j) ≠ none := by
        rw [Ne, List.get?_eq_none]
        omega
      cases hpc : P.get? (P.length - 1 - j) with
      | none => exact absurd hpc hidx
      | some pc =>
        refine ⟨decide (c ≠ pc), ?_⟩
        show (do
          let pc ← pyGet P ((P.length : Int) - 1 - ((j : Nat) : Int))
          pure (decide (c ≠ pc))) = some (decide (c ≠ pc))
        rw [hpy j hj pc hpc]
        rfl)
  obtain ⟨hlen, hspec⟩ := mapM_option_spec _ _ _ hδ
  refine ⟨δ, by exact hδ, by simp [hlen], ?_⟩
  intro j pc hj hpc
  obtain ⟨b, hb1, hb2⟩ := hspec j j
    (by rw [List.get?_eq_getElem?, List.getElem?_range hj])
  have hb1' : (do
      let pc ← pyGet P ((P.length : Int) - 1 - ((j : Nat) : Int))
      pure (decide (c ≠ pc))) = some b := hb1
  rw [hpy j hj pc hpc] at hb1'
  simp only [Option.bind_eq_bind, Option.some_bind] at hb1'
  rw [show ((pure (decide (c ≠ pc))) : Option Bool) = some (decide (c ≠ pc)) from rfl] at hb1'
  cases hb1'
  exact hb2

theorem shl1_length (bv : List Bool) : (shl1 bv).length = bv.length := by
  cases bv <;> simp [shl1]

theorem shl1_get (bv : List Bool) (j : Nat) (hj : j + 1 < bv.length) :
    (shl1 bv).get? j = bv.get? (j + 1) := by
  cases bv with
  | nil => simp at hj
  | cons x t =>
    simp only [shl1]
    rw [List.get?_eq_getElem?, List.get?_eq_getElem?,
      List.getElem?_append_left (by simp at hj ⊢; omega)]
    simp

theorem shl1_get_last (bv : List Bool) (hbv : bv ≠ []) :
    (shl1 bv).get? (bv.length - 1) = some false := by
  cases bv with
  | nil => exact absurd rfl hbv
  | cons x t =>
    simp only [shl1]
    rw [List.get?_eq_getElem?]
    rw [show (x :: t).length - 1 = t.length by simp]
    rw [List.getElem?_concat_length]

theorem zip_or_get (a b : List Bool) (j : Nat) (x y : Bool)
    (ha : a.get? j = some x) (hb : b.get? j = some y) :
    (a.zipWith or b).get? j = some (or x y) := by
  rw [List.get?_eq_getElem?] at ha hb ⊢
  rw [List.getElem?_zipWith, ha, hb]

theorem suffix_take_succ (P T : List Char) (t k : Nat) (c : Char) (pc : Char)
    (ht : P.get? t = some pc) (hk : T.get? k = some c) :
    (P.take (t + 1) <:+ T.take (k + 1)) ↔ (c = pc ∧ P.take t <:+ T.take k) := by
  rw [List.get?_eq_getElem?] at ht hk
  have hP : P.take (t + 1) = P.take t ++ [pc] := by
    rw [List.take_succ, ht]
    rfl
  have hT : T.take (k + 1) = T.take k ++ [c] := by
    rw [List.take_succ, hk]
    rfl
  rw [hP, hT, concat_suffix_concat]
  constructor
  · rintro ⟨h1, h2⟩
    exact ⟨h1.symm, h2⟩
  · rintro ⟨h1, h2⟩
    exact ⟨h1.symm, h2⟩

theorem bv_bits_step (T P : List Char) (k : Nat) (c : Char) (bv δ : List Bool)
    (hm : 1 ≤ P.length) (hc : T.get? k = some c)
    (hbv_len : bv.length = P.length) (hδ_len : δ.length = P.length)
    (hbits : ∀ j, j < P.length →
      bv.get? j = some (decide (¬ P.take (P.length - j) <:+ T.take k)))
    (hδ : ∀ j pc, j < P.length → P.get? (P.length - 1 - j) = some pc →
      δ.get? j = some (decide (c ≠ pc))) :
    ∀ j, j < P.length →
      ((shl1 bv).zipWith or δ).get? j =
        some (decide (¬ P.take (P.length - j) <:+ T.take (k + 1))) := by
  intro j hj
  obtain ⟨pc, hpc⟩ : ∃ pc, P.get? (P.length - 1 - j) = some pc := by
    cases hx : P.get? (P.length - 1 - j) with
    | none =>
      rw [List.get?_eq_none] at hx
      omega
    | some pc => exact ⟨pc, rfl⟩
  have hδj := hδ j pc hj hpc
  by_cases hlast : j = P.length - 1
  · subst hlast
    have hshl : (shl1 bv).get? (P.length - 1) = some false := by
      rw [← hbv_len]
      exact shl1_get_last bv (by intro h; rw [h] at hbv_len; simp at hbv_len; omega)
    have := zip_or_get (shl1 bv) δ (P.length - 1) false (decide (c ≠ pc)) hshl hδj
    rw [this]
    congr 1
    rw [Bool.false_or]
    have hidx0 : P.length - 1 - (P.length - 1) = 0 := by omega
    rw [hidx0] at hpc
    have hstep := suffix_take_succ P T 0 k c pc hpc hc
    rw [decide_eq_decide]
    rw [show P.length - (P.length - 1) = 0 + 1 by omega, hstep]
    simp [List.nil_suffix]
  · have hj1 : j + 1 < P.length := by omega
    have hshl : (shl1 bv).get? j = bv.get? (j + 1) := by
      apply shl1_get
      omega
    rw [hbits (j + 1) hj1] at hshl
    have := zip_or_get (shl1 bv) δ j _ _ hshl hδj
    rw [this]
    congr 1
    have hpc' : P.get? (P.length - j - 1) = some pc := by
      rw [show P.length - j - 1 = P.length - 1 - j by omega]
      exact hpc
    have hstep := suffix_take_succ P T (P.length - j - 1) k c pc hpc' hc
    rw [show (decide ¬(P.take (P.length - (j + 1)) <:+ T.take k) ||
        decide (c ≠ pc)) =
      decide (¬(P.take (P.length - (j + 1)) <:+ T.take k) ∨ c ≠ pc) from
      (Bool.decide_or _ _).symm]
    rw [decide_eq_decide]
    rw [show P.length - j = (P.length - j - 1) + 1 by omega, hstep]
    rw [show P.length - j - 1 = P.length - (j + 1) by omega]
    by_cases hA : P.take (P.length - (j + 1)) <:+ T.take k <;>
      by_cases hcp : c = pc <;> simp [hA, hcp]

theorem bv_fold_spec (T P : List Char) (hP : P ≠ []) :
    ∀ (k : Nat), k ≤ T.length →
    ∃ bv occ,
      (List.range k).foldlM
        (fun (st : List Bool × List Int) (i : Nat) => do
          let (bv, occurrences) := st
          let c ← pyGet T (i : Int)
          let delta ← delta_row P c
          let bv' := (shl1 bv).zipWith or delta
          let b0 ← pyGet bv' 0
          let occurrences' :=
            if b0 = false then occurrences ++ [((i : Int) + 1) - (P.length : Int) + 1]
            else occurrences
          pure (bv', occurrences'))
        (List.replicate P.length true, []) = some (bv, occ) ∧
      bv.length = P.length ∧
      (∀ j, j < P.length →
        bv.get? j = some (decide (¬ P.take (P.length - j) <:+ T.take k))) ∧
      occ = ((List.range k).filter
          (fun i => decide (P <:+ T.take (i + 1)))).map
        (fun (i : Nat) => ((i : Int) + 1) - (P.length : Int) + 1) := by
  have hm : 1 ≤ P.length := List.length_pos.mpr hP
  intro k
  induction k with
  | zero =>
    intro _
    refine ⟨List.replicate P.length true, [], by rw [List.range_zero, List.foldlM_nil]; rfl,
      by simp, ?_, by simp⟩
    intro j hj
    rw [List.get?_eq_getElem?, List.getElem?_replicate, if_pos hj]
    congr 1
    have htake0 : T.take 0 = [] := rfl
    rw [htake0]
    have hne : P.take (P.length - j) ≠ [] := by
      intro habs
      have := congrArg List.length habs
      simp at this
      omega
    simp [List.suffix_nil, hne]
  | succ k ih =>
    intro hk1
    obtain ⟨bv, occ, hfold, hlen, hbits, hocc⟩ := ih (by omega)
    have hkn : k < T.length := by omega
    obtain ⟨c, hc⟩ : ∃ c, T.get? k = some c := by
      cases hx : T.get? k with
      | none => rw [List.get?_eq_none] at hx; omega
      | some c => exact ⟨c, rfl⟩
    obtain ⟨δ, hδeq, hδlen, hδspec⟩ := delta_row_spec P c
    have hbits' := bv_bits_step T P k c bv δ hm hc hlen hδlen hbits hδspec
    have hbv'len : ((shl1 bv).zipWith or δ).length = P.length := by
      rw [List.length_zipWith, shl1_length, hlen, hδlen]
      omega
    have hb0 : ((shl1 bv).zipWith or δ).get? 0 =
        some (decide (¬ P <:+ T.take (k + 1))) := by
      have h0 := hbits' 0 (by omega)
      rw [Nat.sub_zero, List.take_length] at h0
      exact h0
    have hpy0 : pyGet ((shl1 bv).zipWith or δ) 0 =
        some (decide (¬ P <:+ T.take (k + 1))) := by
      rw [show (0 : Int) = ((0 : Nat) : Int) from rfl, pyGet_ofNat]
      exact hb0
    refine ⟨(shl1 bv).zipWith or δ,
      if decide (¬ P <:+ T.take (k + 1)) = false
        then occ ++ [((k : Int) + 1) - (P.length : Int) + 1] else occ,
      ?_, hbv'len, hbits', ?_⟩
    · rw [List.range_succ, List.foldlM_append, hfold]
      simp only [Option.bind_eq_bind, Option.some_bind, List.foldlM_cons,
        List.foldlM_nil]
      rw [pyGet_ofNat, hc]
      simp only [Option.some_bind]
      rw [hδeq]
      simp only [Option.some_bind]
      rw [hpy0]
      simp only [Option.some_bind]
      simp
    · rw [List.range_succ, List.filter_append, List.map_append, ← hocc]
      simp only [List.filter_cons, List.filter_nil]
      by_cases hsfx : P <:+ T.take (k + 1)
      · simp [hsfx]
      · simp [hsfx]

theorem suffix_take_iff_occ (T P : List Char) (i : Nat) (hi : i < T.length) :
    (P <:+ T.take (i + 1)) ↔
      (P.length ≤ i + 1 ∧ (T.drop (i + 1 - P.length)).take P.length = P) := by
  have hlenY : (T.take (i + 1)).length = i + 1 := by
    rw [List.length_take]
    omega
  have hswap : P.length ≤ i + 1 → (T.drop (i + 1 - P.length)).take P.length
      = (T.take (i + 1)).drop (i + 1 - P.length) := by
    intro hle
    rw [List.take_drop]
    rw [show i + 1 - P.length + P.length = i + 1 by omega]
  constructor
  · intro h
    have hle := h.length_le
    rw [hlenY] at hle
    refine ⟨hle, ?_⟩
    rw [List.suffix_iff_eq_drop, hlenY] at h
    rw [hswap hle]
    exact h.symm
  · rintro ⟨hle, heq⟩
    rw [List.suffix_iff_eq_drop, hlenY]
    rw [hswap hle] at heq
    exact heq.symm

theorem occ_reindex (T P : List Char) (hP : P ≠ []) :
    ((List.range T.length).filter (fun i => decide (P <:+ T.take (i + 1)))).map
        (fun (i : Nat) => ((i : Int) + 1) - (P.length : Int) + 1)
      = (occurrencesSpec T P).map (fun (a : Nat) => (a : Int) + 1) := by
  have hm : 1 ≤ P.length := List.length_pos.mpr hP
  have hnodupL : (((List.range T.length).filter
      (fun i => decide (P <:+ T.take (i + 1)))).map
      (fun (i : Nat) => ((i : Int) + 1) - (P.length : Int) + 1)).Nodup := by
    refine List.Nodup.map ?_ (List.Nodup.filter _ (List.nodup_range _))
    intro a b hab
    dsimp only at hab
    omega
  have hnodupR : ((occurrencesSpec T P).map
      (fun (a : Nat) => (a : Int) + 1)).Nodup := by
    refine List.Nodup.map ?_ (List.Nodup.filter _ (List.nodup_range _))
    intro a b hab
    dsimp only at hab
    omega
  have hsortL : (((List.range T.length).filter
      (fun i => decide (P <:+ T.take (i + 1)))).map
      (fun (i : Nat) => ((i : Int) + 1) - (P.length : Int) + 1)).Pairwise (· ≤ ·) := by
    refine List.Pairwise.map _ (fun a b hab => ?_)
      (List.Pairwise.filter _ (List.pairwise_lt_range T.length))
    dsimp only
    omega
  have hsortR : ((occurrencesSpec T P).map
      (fun (a : Nat) => (a : Int) + 1)).Pairwise (· ≤ ·) := by
    refine List.Pairwise.map _ (fun a b hab => ?_)
      (List.Pairwise.filter _ (List.pairwise_lt_range (T.length + 1)))
    dsimp only
    omega
  have hmem : ∀ v : Int,
      v ∈ ((List.range T.length).filter
        (fun i => decide (P <:+ T.take (i + 1)))).map
        (fun (i : Nat) => ((i : Int) + 1) - (P.length : Int) + 1) ↔
      v ∈ (occurrencesSpec T P).map (fun (a : Nat) => (a : Int) + 1) := by
    intro v
    unfold occurrencesSpec
    simp only [List.mem_map, List.mem_filter, List.mem_range, decide_eq_true_eq,
      Bool.and_eq_true]
    constructor
    · rintro ⟨i, ⟨hi, hsfx⟩, hv⟩
      obtain ⟨hle, hocc⟩ := (suffix_take_iff_occ T P i hi).1 hsfx
      refine ⟨i + 1 - P.length, ⟨by omega, by constructor <;> [skip; exact hocc] <;> omega⟩, ?_⟩
      omega
    · rintro ⟨a, ⟨ha, hcond, hocc⟩, hv⟩
      have hi : a + P.length - 1 < T.length := by omega
      refine ⟨a + P.length - 1, ⟨hi, ?_⟩, by omega⟩
      rw [suffix_take_iff_occ T P (a + P.length - 1) hi]
      constructor
      · omega
      · rw [show a + P.length - 1 + 1 - P.length = a by omega]
        exact hocc
  have hperm := (List.perm_ext_iff_of_nodup hnodupL hnodupR).2 hmem
  exact List.eq_of_perm_of_sorted hperm hsortL hsortR

/-- `bitvector_pat_match` on a non-empty pattern succeeds and returns
exactly the 0-based occurrence indices shifted up by one. -/
theorem bitvector_occ_spec (T P : List Char) (hP : P ≠ []) :
    bitvector_pat_match T P =
      some ((occurrencesSpec T P).map (fun (a : Nat) => (a : Int) + 1)) := by
  obtain ⟨bv, occ, hfold, -, -, hocc⟩ := bv_fold_spec T P hP T.length (le_refl _)
  simp only [bitvector_pat_match]
  rw [hfold]
  simp only [Option.bind_eq_bind, Option.some_bind]
  rw [show occ = (((List.range T.length).filter
      (fun i => decide (P <:+ T.take (i + 1)))).map
      (fun (i : Nat) => ((i : Int) + 1) - (P.length : Int) + 1)) from hocc]
  rw [occ_reindex T P hP]
  rfl

/-- C10: for every non-empty pattern `P` and every text `T`,
`bitvector_pat_match T P` returns exactly the list of values `i + 1` for
each 0-based index `i` at which `P` occurs in `T`, in strictly ascending
order. -/
theorem c10_bitvector_occurrences_plus_one (T P : List Char) (hP : P ≠ []) :
    bitvector_pat_match T P =
      some ((occurrencesSpec T P).map (fun (a : Nat) => (a : Int) + 1)) ∧
    ((occurrencesSpec T P).map (fun (a : Nat) => (a : Int) + 1)).Pairwise (· < ·) := by
  constructor
  · exact bitvector_occ_spec T P hP
  · refine List.Pairwise.map _ (fun a b hab => ?_)
      (List.Pairwise.filter _ (List.pairwise_lt_range (T.length + 1)))
    dsimp only
    omega

theorem c10_witness :
    "ab".toList ≠ ([] : List Char) ∧
    (bitvector_pat_match "abab".toList "ab".toList =
      some ((occurrencesSpec "abab".toList "ab".toList).map
        (fun (a : Nat) => (a : Int) + 1)) ∧
    ((occurrencesSpec "abab".toList "ab".toList).map
        (fun (a : Nat) => (a : Int) + 1)).Pairwise (· < ·)) :=
  ⟨by decide, c10_bitvector_occurrences_plus_one "abab".toList "ab".toList (by decide)⟩

/-! ## Correctness of `z_algorithm` (C5) -/

/-- The Z-array invariant at position `i` with value `v`: the prefix of
length `v` matches the substring starting at `i`, maximally. -/
def ZOk (s : List Char) (i v : Nat) : Prop :=
  i + v ≤ s.length ∧ (∀ t, t < v → s.get? t = s.get? (i + t)) ∧
  (i + v = s.length ∨ s.get? v ≠ s.get? (i + v))

/-- Loop invariant of `z_algorithm` before processing index `i`:
entries `1 ≤ j < i` are correct Z-values, later entries still hold `0`,
entry `0` holds the `NAN` sentinel, and `(l, r)` is a valid Z-box. -/
def ZInv (s : List Char) (i : Nat) (st : Int × Int × List Int) : Prop :=
  st.2.2.length = s.length ∧
  st.2.2.get? 0 = some (-1) ∧
  (∀ j : Nat, 1 ≤ j → j < i → ∃ vn : Nat, st.2.2.get? j = some ((vn : Int)) ∧ ZOk s j vn) ∧
  (∀ j : Nat, i ≤ j → j < s.length → st.2.2.get? j = some 0) ∧
  ((st.1 = 0 ∧ st.2.1 = 0) ∨
    (∃ ln k : Nat, st.1 = (ln : Int) ∧ st.2.1 = ((ln + k - 1 : Nat) : Int) ∧
      1 ≤ ln ∧ ln < i ∧ 1 ≤ k ∧ ZOk s ln k))

theorem zExtend_spec (S : List Char) (i : Nat) (hi : 1 ≤ i) :
    ∀ (steps : Nat) (z0 : Nat),
      (∀ t, t < z0 → S.get? t = S.get? (i + t)) →
      i + z0 ≤ S.length →
      S.length - 1 - z0 ≤ steps →
      ∃ zn : Nat, zExtend S (i : Int) steps ((z0 : Nat) : Int) ((z0 : Nat) : Int)
          = some ((zn : Int)) ∧ ZOk S i zn ∧ z0 ≤ zn := by
  intro steps
  induction steps with
  | zero =>
    intro z0 hmatch hbound hfuel
    refine ⟨z0, rfl, ⟨hbound, hmatch, Or.inl (by omega)⟩, le_refl _⟩
  | succ st ih =>
    intro z0 hmatch hbound hfuel
    by_cases hend : i + z0 ≥ S.length
    · refine ⟨z0, ?_, ⟨hbound, hmatch, Or.inl (by omega)⟩, le_refl _⟩
      unfold zExtend
      rw [if_pos (by exact_mod_cast by omega)]
      rfl
    · have hz0L : z0 < S.length := by omega
      have hizL : i + z0 < S.length := by omega
      obtain ⟨c1, hc1⟩ : ∃ c, S.get? z0 = some c := by
        cases hx : S.get? z0 with
        | none => rw [List.get?_eq_none] at hx; omega
        | some c => exact ⟨c, rfl⟩
      obtain ⟨c2, hc2⟩ : ∃ c, S.get? (i + z0) = some c := by
        cases hx : S.get? (i + z0) with
        | none => rw [List.get?_eq_none] at hx; omega
        | some c => exact ⟨c, rfl⟩
      have hpy1 : pyGet S ((z0 : Nat) : Int) = some c1 := by
        rw [pyGet_ofNat]; exact hc1
      have hpy2 : pyGet S ((i : Int) + ((z0 : Nat) : Int)) = some c2 := by
        rw [show ((i : Int) + ((z0 : Nat) : Int)) = (((i + z0 : Nat) : Nat) : Int) by
          push_cast; ring]
        rw [pyGet_ofNat]
        exact hc2
      by_cases hcc : c1 = c2
      · have hmatch' : ∀ t, t < z0 + 1 → S.get? t = S.get? (i + t) := by
          intro t ht
          by_cases htz : t < z0
          · exact hmatch t htz
          · have : t = z0 := by omega
            subst this
            rw [hc1, hc2, hcc]
        obtain ⟨zn, hzn, hok, hle⟩ := ih (z0 + 1) hmatch' (by omega) (by omega)
        refine ⟨zn, ?_, hok, by omega⟩
        unfold zExtend
        rw [if_neg (by exact_mod_cast by omega)]
        rw [hpy1]
        simp only [Option.bind_eq_bind, Option.some_bind]
        rw [hpy2]
        simp only [Option.bind_eq_bind, Option.some_bind]
        rw [if_pos hcc]
        rw [show ((z0 : Nat) : Int) + 1 = (((z0 + 1 : Nat) : Nat) : Int) by push_cast; ring]
        exact hzn
      · refine ⟨z0, ?_, ⟨hbound, hmatch, Or.inr ?_⟩, le_refl _⟩
        · unfold zExtend
          rw [if_neg (by exact_mod_cast by omega)]
          rw [hpy1]
          simp only [Option.bind_eq_bind, Option.some_bind]
          rw [hpy2]
          simp only [Option.bind_eq_bind, Option.some_bind]
          rw [if_neg hcc]
          rfl
        · rw [hc1, hc2]
          intro h
          exact hcc (by injection h)

theorem pySet_eq (xs : List α) (i : Int) (v : α) (h0 : 0 ≤ i)
    (h1 : i < (xs.length : Int)) : pySet xs i v = some (xs.set i.toNat v) := by
  unfold pySet pyIdx
  rw [if_pos ⟨h0, h1⟩]
  rfl

/-- Copying a Z-value through a valid Z-box: if `z[os]` is a correct
Z-value and `os + z[os]` falls strictly inside the box contents, the same
value is correct at `i = ln + os`. -/
theorem zok_copy (S : List Char) (ln k i os vn : Nat) (hZl : ZOk S ln k)
    (hZo : ZOk S os vn) (hieq : i = ln + os) (hlt : os + vn < k) : ZOk S i vn := by
  obtain ⟨hbl, hml, hxl⟩ := hZl
  obtain ⟨hbo, hmo, hxo⟩ := hZo
  refine ⟨by omega, ?_, ?_⟩
  · intro t ht
    rw [hmo t ht, hml (os + t) (by omega)]
    congr 1
    omega
  · right
    have honvnL : os + vn < S.length := by omega
    have hneq : S.get? vn ≠ S.get? (os + vn) := by
      rcases hxo with h | h
      · omega
      · exact h
    have heq2 : S.get? (os + vn) = S.get? (i + vn) := by
      rw [hml (os + vn) (by omega)]
      congr 1
      omega
    rw [← heq2]
    exact hneq

/-- Capping a Z-value at the box boundary: if `z[os]` exceeds the remaining
box length `k - os`, the value `k - os` is correct at `i = ln + os`. -/
theorem zok_cap (S : List Char) (ln k i os vn : Nat) (hZl : ZOk S ln k)
    (hZo : ZOk S os vn) (hieq : i = ln + os) (hgt : k - os < vn) (hon : os < k) :
    ZOk S i (k - os) := by
  obtain ⟨hbl, hml, hxl⟩ := hZl
  obtain ⟨hbo, hmo, hxo⟩ := hZo
  refine ⟨by omega, ?_, ?_⟩
  · intro t ht
    rw [hmo t (by omega), hml (os + t) (by omega)]
    congr 1
    omega
  · have hik : i + (k - os) = ln + k := by omega
    rcases Nat.eq_or_lt_of_le hbl with hL | hL
    · left
      omega
    · right
      rw [hik]
      have h1 : S.get? (k - os) = S.get? k := by
        rw [hmo (k - os) (by omega)]
        congr 1
        omega
      have h2 : S.get? k ≠ S.get? (ln + k) := by
        rcases hxl with h | h
        · omega
        · exact h
      rw [h1]
      exact h2

/-- The matched part transfers through the box: precondition for the
explicit-extension loop in the `z[os] = remaining` case. -/
theorem zok_ext_pre (S : List Char) (ln k i os vn : Nat) (hZl : ZOk S ln k)
    (hZo : ZOk S os vn) (hieq : i = ln + os) (hle : os + vn ≤ k) :
    ∀ t, t < vn → S.get? t = S.get? (i + t) := by
  obtain ⟨hbl, hml, hxl⟩ := hZl
  obtain ⟨hbo, hmo, hxo⟩ := hZo
  intro t ht
  rw [hmo t ht, hml (os + t) (by omega)]
  congr 1
  omega

/-- Updating the Z-array at position `i` with a correct value preserves the
non-box part of the loop invariant, advancing `i`. -/
theorem ZInv_set (S : List Char) (i : Nat) (l r : Int) (zarr zarr' : List Int)
    (vn : Nat) (hinv : ZInv S i (l, r, zarr))
    (hset : pySet zarr ((i : Nat) : Int) ((vn : Nat) : Int) = some zarr')
    (hok : ZOk S i vn) (hi1 : 1 ≤ i) (hiL : i < S.length) :
    zarr'.length = S.length ∧ zarr'.get? 0 = some (-1) ∧
    (∀ j : Nat, 1 ≤ j → j < i + 1 →
      ∃ wn : Nat, zarr'.get? j = some ((wn : Int)) ∧ ZOk S j wn) ∧
    (∀ j : Nat, i + 1 ≤ j → j < S.length → zarr'.get? j = some 0) := by
  obtain ⟨hlen, h0, hdone, htodo, -⟩ := hinv
  obtain ⟨hset_eq, hset_ne⟩ := pySet_get? zarr _ _ zarr' (by omega) hset
  have hlen' : zarr'.length = S.length := by
    rw [pySet_length _ _ _ _ hset]
    exact hlen
  have htoN : ((i : Int)).toNat = i := by omega
  rw [htoN] at hset_eq
  refine ⟨hlen', ?_, ?_, ?_⟩
  · rw [hset_ne 0 (by omega)]
    exact h0
  · intro j hj1 hj2
    by_cases hji : j = i
    · subst hji
      exact ⟨vn, hset_eq, hok⟩
    · rw [hset_ne j (by omega)]
      exact hdone j hj1 (by omega)
  · intro j hj1 hj2
    rw [hset_ne j (by omega)]
    exact htodo j (by omega) hj2

theorem zStep_spec (S : List Char) (i : Nat) (hi1 : 1 ≤ i) (hiL : i < S.length)
    (l r : Int) (zarr : List Int) (hinv : ZInv S i (l, r, zarr)) :
    ∃ st', zStep S (l, r, zarr) i = some st' ∧ ZInv S (i + 1) st' := by
  obtain ⟨hlen, h0, hdone, htodo, hbox⟩ := hinv
  dsimp only at hlen h0 hdone htodo hbox
  have hzi : zarr.get? i = some 0 := htodo i (le_refl _) hiL
  have hboxmono : ∀ (l' r' : Int),
      ((l' = 0 ∧ r' = 0) ∨
        (∃ ln k : Nat, l' = (ln : Int) ∧ r' = ((ln + k - 1 : Nat) : Int) ∧
          1 ≤ ln ∧ ln < i ∧ 1 ≤ k ∧ ZOk S ln k)) →
      ((l' = 0 ∧ r' = 0) ∨
        (∃ ln k : Nat, l' = (ln : Int) ∧ r' = ((ln + k - 1 : Nat) : Int) ∧
          1 ≤ ln ∧ ln < i + 1 ∧ 1 ≤ k ∧ ZOk S ln k)) := by
    rintro l' r' (h | ⟨ln, k, h1, h2, h3, h4, h5, h6⟩)
    · exact Or.inl h
    · exact Or.inr ⟨ln, k, h1, h2, h3, by omega, h5, h6⟩
  simp only [zStep]
  by_cases hir : ((i : Nat) : Int) ≤ r
  · rw [if_pos hir]
    rcases hbox with ⟨hl0, hr0⟩ | ⟨ln, k, hleq, hreq, hln1, hlni, hk1, hZl⟩
    · exfalso
      rw [hr0] at hir
      have : (1 : Int) ≤ ((i : Nat) : Int) := by exact_mod_cast hi1
      omega
    · have hbox' : (l = 0 ∧ r = 0) ∨
          (∃ ln k : Nat, l = (ln : Int) ∧ r = ((ln + k - 1 : Nat) : Int) ∧
            1 ≤ ln ∧ ln < i ∧ 1 ≤ k ∧ ZOk S ln k) :=
        Or.inr ⟨ln, k, hleq, hreq, hln1, hlni, hk1, hZl⟩
      have hirn : i ≤ ln + k - 1 := by
        rw [hreq] at hir
        exact_mod_cast hir
      have hos1 : 1 ≤ i - ln := by omega
      have hosk : i - ln < k := by omega
      have hosi2 : i = ln + (i - ln) := by omega
      obtain ⟨vn, hvn, hZo⟩ := hdone (i - ln) hos1 (by omega)
      have hpyo : pyGet zarr (((i : Nat) : Int) - l) = some ((vn : Int)) := by
        rw [show (((i : Nat) : Int) - l) = (((i - ln : Nat) : Nat) : Int) by
          rw [hleq]; omega]
        rw [pyGet_ofNat]
        exact hvn
      rw [hpyo]
      simp only [Option.bind_eq_bind, Option.some_bind]
      have hrem : r - ((i : Nat) : Int) + 1 = ((k - (i - ln) : Nat) : Int) := by
        clear hboxmono hbox' hdone htodo hpyo hvn hZo hZl h0 hlen hzi hir
        rw [hreq]
        omega
      by_cases hv0 : ((vn : Nat) : Int) = 0
      · rw [if_pos hv0]
        have hvn0 : vn = 0 := by exact_mod_cast hv0
        have hok0 : ZOk S i 0 := by
          refine zok_copy S ln k i (i - ln) 0 hZl ?_ hosi2 (by omega)
          rw [← hvn0]
          exact hZo
        refine ⟨_, rfl, hlen, h0, ?_,
          (fun j hj1 hj2 => htodo j (by omega) hj2), hboxmono l r hbox'⟩
        intro j hj1 hj2
        by_cases hji : j = i
        · subst hji
          exact ⟨0, by simpa using hzi, hok0⟩
        · exact hdone j hj1 (by omega)
      · rw [if_neg hv0]
        have hvn1 : 1 ≤ vn := by
          by_contra hc
          exact hv0 (by simp [show vn = 0 by omega])
        by_cases hvlt : ((vn : Nat) : Int) < r - ((i : Nat) : Int) + 1
        · rw [if_pos hvlt]
          have hvltn : vn < k - (i - ln) := by
            rw [hrem] at hvlt
            exact_mod_cast hvlt
          have hok2 : ZOk S i vn :=
            zok_copy S ln k i (i - ln) vn hZl hZo hosi2 (by omega)
          have hset := pySet_eq zarr ((i : Nat) : Int) ((vn : Nat) : Int) (by omega)
            (by rw [hlen]; exact_mod_cast hiL)
          rw [hset]
          simp only [Option.some_bind]
          have hparts := ZInv_set S i l r zarr _ vn
            ⟨hlen, h0, hdone, htodo, hbox'⟩ hset hok2 hi1 hiL
          exact ⟨_, rfl, hparts.1, hparts.2.1, hparts.2.2.1, hparts.2.2.2,
            hboxmono l r hbox'⟩
        · rw [if_neg hvlt]
          by_cases hveq : ((vn : Nat) : Int) = r - ((i : Nat) : Int) + 1
          · rw [if_pos hveq]
            have hveqn : vn = k - (i - ln) := by
              rw [hrem] at hveq
              exact_mod_cast hveq
            have hmatchpre : ∀ t, t < vn → S.get? t = S.get? (i + t) :=
              zok_ext_pre S ln k i (i - ln) vn hZl hZo hosi2 (by omega)
            have hset1 := pySet_eq zarr ((i : Nat) : Int) ((vn : Nat) : Int) (by omega)
              (by rw [hlen]; exact_mod_cast hiL)
            rw [hset1]
            simp only [Option.some_bind]
            have hget1 : pyGet (zarr.set (((i : Nat) : Int)).toNat ((vn : Nat) : Int))
                ((i : Nat) : Int) = some ((vn : Nat) : Int) := by
              obtain ⟨hseteq, -⟩ := pySet_get? zarr ((i : Nat) : Int) ((vn : Nat) : Int)
                _ (by omega) hset1
              rw [pyGet_ofNat]
              rw [show (((i : Nat) : Int)).toNat = i by omega] at hseteq ⊢
              exact hseteq
            rw [hget1]
            simp only [Option.some_bind]
            obtain ⟨zn, hzn, hok, hge⟩ := zExtend_spec S i hi1
              (((S.length : Int) - 1 - ((vn : Nat) : Int)).toNat) vn hmatchpre
              (by have := hZl.1; omega) (by omega)
            rw [hzn]
            simp only [Option.some_bind]
            have hlen1 : (zarr.set (((i : Nat) : Int)).toNat ((vn : Nat) : Int)).length
                = S.length := by
              rw [List.length_set]
              exact hlen
            have hset2 := pySet_eq (zarr.set (((i : Nat) : Int)).toNat ((vn : Nat) : Int))
              ((i : Nat) : Int) ((zn : Nat) : Int) (by omega)
              (by rw [hlen1]; exact_mod_cast hiL)
            rw [hset2]
            simp only [Option.some_bind]
            have hdouble : (zarr.set (((i : Nat) : Int)).toNat ((vn : Nat) : Int)).set
                (((i : Nat) : Int)).toNat ((zn : Nat) : Int)
                = zarr.set (((i : Nat) : Int)).toNat ((zn : Nat) : Int) :=
              List.set_set _ _ _ _
            have hsetS : pySet zarr ((i : Nat) : Int) ((zn : Nat) : Int)
                = some (zarr.set (((i : Nat) : Int)).toNat ((zn : Nat) : Int)) :=
              pySet_eq zarr _ _ (by omega) (by rw [hlen]; exact_mod_cast hiL)
            have hparts := ZInv_set S i l r zarr _ zn
              ⟨hlen, h0, hdone, htodo, hbox'⟩ hsetS hok hi1 hiL
            by_cases hupd : ¬(zn : Int) = 0 ∧ ((i : Nat) : Int) + (zn : Int) > r
            · rw [if_pos hupd]
              rw [hdouble]
              refine ⟨_, rfl, hparts.1, hparts.2.1, hparts.2.2.1, hparts.2.2.2, ?_⟩
              right
              have hzn1 : 1 ≤ zn := by omega
              refine ⟨i, zn, rfl, ?_, by omega, by omega, by omega, hok⟩
              push_cast
              omega
            · rw [if_neg hupd]
              rw [hdouble]
              exact ⟨_, rfl, hparts.1, hparts.2.1, hparts.2.2.1, hparts.2.2.2,
                hboxmono l r hbox'⟩
          · rw [if_neg hveq]
            have hvgtn : k - (i - ln) < vn := by
              rw [hrem] at hvlt hveq
              have h1 : ¬((vn : Nat) : Int) < ((k - (i - ln) : Nat) : Int) := hvlt
              have h2 : ¬((vn : Nat) : Int) = ((k - (i - ln) : Nat) : Int) := hveq
              omega
            have hok4 : ZOk S i (k - (i - ln)) :=
              zok_cap S ln k i (i - ln) vn hZl hZo hosi2 hvgtn hosk
            rw [hrem]
            have hset := pySet_eq zarr ((i : Nat) : Int) ((k - (i - ln) : Nat) : Int)
              (by omega) (by rw [hlen]; exact_mod_cast hiL)
            rw [hset]
            simp only [Option.some_bind]
            have hparts := ZInv_set S i l r zarr _ (k - (i - ln))
              ⟨hlen, h0, hdone, htodo, hbox'⟩ hset hok4 hi1 hiL
            exact ⟨_, rfl, hparts.1, hparts.2.1, hparts.2.2.1, hparts.2.2.2,
              hboxmono l r hbox'⟩
  · rw [if_neg hir]
    have hpyz : pyGet zarr ((i : Nat) : Int) = some 0 := by
      rw [pyGet_ofNat]
      exact hzi
    rw [hpyz]
    simp only [Option.bind_eq_bind, Option.some_bind]
    obtain ⟨zn, hzn, hok, -⟩ := zExtend_spec S i hi1
      (((S.length : Int) - 1 - 0).toNat) 0 (by intro t ht; omega) (by omega) (by omega)
    simp only [Nat.cast_zero] at hzn
    rw [hzn]
    simp only [Option.some_bind]
    have hset := pySet_eq zarr ((i : Nat) : Int) ((zn : Nat) : Int) (by omega)
      (by rw [hlen]; exact_mod_cast hiL)
    rw [hset]
    simp only [Option.some_bind]
    have hsetS : pySet zarr ((i : Nat) : Int) ((zn : Nat) : Int)
        = some (zarr.set ((i : Int)).toNat ((zn : Nat) : Int)) := hset
    have hparts := ZInv_set S i l r zarr (zarr.set ((i : Int)).toNat ((zn : Nat) : Int))
      zn ⟨hlen, h0, hdone, htodo, hbox⟩ hsetS hok hi1 hiL
    by_cases hupd : ¬(zn : Int) = 0 ∧ ((i : Nat) : Int) + (zn : Int) > r
    · rw [if_pos hupd]
      refine ⟨_, rfl, hparts.1, hparts.2.1, hparts.2.2.1, hparts.2.2.2, ?_⟩
      right
      refine ⟨i, zn, rfl, ?_, by omega, by omega, by omega, hok⟩
      have hzn1 : 1 ≤ zn := by
        have := hupd.1
        omega
      push_cast
      omega
    · rw [if_neg hupd]
      exact ⟨_, rfl, hparts.1, hparts.2.1, hparts.2.2.1, hparts.2.2.2,
        hboxmono l r hbox⟩

theorem z_fold (S : List Char) :
    ∀ (cnt : Nat) (i0 : Nat) (st : Int × Int × List Int), 1 ≤ i0 →
      i0 + cnt ≤ S.length → ZInv S i0 st →
      ∃ st', (List.range' i0 cnt).foldlM (zStep S) st = some st' ∧
        ZInv S (i0 + cnt) st'
  | 0, i0, st, _, _, hinv => ⟨st, by rw [List.range'_zero, List.foldlM_nil]; rfl, hinv⟩
  | cnt + 1, i0, st, hi0, hbound, hinv => by
    obtain ⟨l, r, zarr⟩ := st
    obtain ⟨st1, hst1, hinv1⟩ := zStep_spec S i0 hi0 (by omega) l r zarr hinv
    obtain ⟨st', hst', hinv'⟩ := z_fold S cnt (i0 + 1) st1 (by omega) (by omega) hinv1
    refine ⟨st', ?_, by rw [show i0 + (cnt + 1) = i0 + 1 + cnt by omega]; exact hinv'⟩
    rw [List.range'_succ, List.foldlM_cons, hst1]
    simpa using hst'

/-- Master theorem for `z_algorithm`: on a non-empty string it succeeds,
the result has the string's length, entry 0 is the `NAN` sentinel, and
every entry `1 ≤ i < |S|` is a correct, maximal Z-value. -/
theorem z_algorithm_spec (S : List Char) (hS : S ≠ []) :
    ∃ z, z_algorithm S = some z ∧ z.length = S.length ∧ z.get? 0 = some (-1) ∧
      ∀ i : Nat, 1 ≤ i → i < S.length →
        ∃ vn : Nat, z.get? i = some ((vn : Int)) ∧ ZOk S i vn := by
  have hL : 1 ≤ S.length := List.length_pos.mpr hS
  simp only [z_algorithm]
  have hset : pySet (List.replicate S.length (0 : Int)) 0 NAN
      = some ((List.replicate S.length (0 : Int)).set 0 NAN) := by
    apply pySet_eq
    · omega
    · simp
      omega
  rw [hset]
  simp only [Option.bind_eq_bind, Option.some_bind]
  have hinv0 : ZInv S 1 (0, 0, (List.replicate S.length (0 : Int)).set 0 NAN) := by
    refine ⟨by simp, ?_, ?_, ?_, Or.inl ⟨rfl, rfl⟩⟩
    · show ((List.replicate S.length (0 : Int)).set 0 NAN).get? 0 = some (-1)
      rw [List.get?_eq_getElem?, List.getElem?_set_self]
      · rfl
      · simp
        omega
    · intro j hj1 hj2
      omega
    · intro j hj1 hj2
      rw [List.get?_eq_getElem?, List.getElem?_set_ne (by omega)]
      rw [List.getElem?_replicate, if_pos hj2]
  obtain ⟨st', hst', hinv'⟩ := z_fold S (S.length - 1) 1
    (0, 0, (List.replicate S.length (0 : Int)).set 0 NAN) (le_refl _)
    (by omega) hinv0
  rw [hst']
  obtain ⟨hlen, h0, hdone, -, -⟩ := hinv'
  refine ⟨st'.2.2, rfl, hlen, h0, ?_⟩
  intro i hi1 hi2
  exact hdone i hi1 (by omega)

theorem take_eq_of_pointwise (S : List Char) (i vn : Nat)
    (h : ∀ t, t < vn → S.get? t = S.get? (i + t)) :
    S.take vn = (S.drop i).take vn := by
  apply List.ext_get?
  intro t
  rw [List.get?_eq_getElem?, List.get?_eq_getElem?, List.getElem?_take,
    List.getElem?_take]
  by_cases ht : t < vn
  · rw [if_pos ht, if_pos ht, List.getElem?_drop, ← List.get?_eq_getElem?,
      ← List.get?_eq_getElem?]
    exact h t ht
  · rw [if_neg ht, if_neg ht]

/-- C5: for every non-empty string `S`, `z_algorithm` succeeds and returns
an array `z` of length `|S|` such that for every `0 < i < |S|` the entry
`z[i]` is a non-negative value `v` with `S[0 .. v) = S[i .. i+v)`, and
either `i + v = |S|` or `S[v] ≠ S[i+v]`. -/
theorem c5_z_array_invariant (S : List Char) (hS : S ≠ []) :
    ∃ z, z_algorithm S = some z ∧ z.length = S.length ∧
      ∀ i : Nat, 0 < i → i < S.length →
        ∃ vn : Nat, z.get? i = some ((vn : Int)) ∧
          i + vn ≤ S.length ∧
          S.take vn = (S.drop i).take vn ∧
          (i + vn = S.length ∨ S.get? vn ≠ S.get? (i + vn)) := by
  obtain ⟨z, hz, hlen, -, hprop⟩ := z_algorithm_spec S hS
  refine ⟨z, hz, hlen, ?_⟩
  intro i hi1 hi2
  obtain ⟨vn, hvn, hbound, hmatch, hmax⟩ := hprop i hi1 hi2
  exact ⟨vn, hvn, hbound, take_eq_of_pointwise S i vn hmatch, hmax⟩

theorem c5_witness :
    ∃ z, z_algorithm "aabcaabxaaz".toList = some z ∧
      z.length = "aabcaabxaaz".toList.length ∧
      ∀ i : Nat, 0 < i → i < "aabcaabxaaz".toList.length →
        ∃ vn : Nat, z.get? i = some ((vn : Int)) ∧
          i + vn ≤ "aabcaabxaaz".toList.length ∧
          "aabcaabxaaz".toList.take vn = ("aabcaabxaaz".toList.drop i).take vn ∧
          (i + vn = "aabcaabxaaz".toList.length ∨
            "aabcaabxaaz".toList.get? vn ≠ "aabcaabxaaz".toList.get? (i + vn)) :=
  c5_z_array_invariant "aabcaabxaaz".toList (by decide)

/-! ## Correctness of `matched_prefix` (C6) -/

/-- The specified matched-prefix value, following the spec's words: the
length of the longest suffix of `pat[i:]` (i.e. `pat[j:]` for the smallest
qualifying `j ≥ i`) that equals a prefix of the whole pattern. -/
def specMP (pat : List Char) (i : Nat) : Nat :=
  (List.range' i (pat.length + 1 - i)).foldr
    (fun j acc => if (pat.drop j).isPrefixOf pat then pat.length - j else acc) 0

theorem specMP_step (pat : List Char) (i : Nat) (hi : i ≤ pat.length) :
    specMP pat i =
      if (pat.drop i).isPrefixOf pat then pat.length - i else specMP pat (i + 1) := by
  unfold specMP
  rw [show pat.length + 1 - i = (pat.length - i) + 1 by omega, List.range'_succ]
  rw [List.foldr_cons]
  congr 1
  rw [show pat.length - i = pat.length + 1 - (i + 1) by omega]

theorem specMP_last (pat : List Char) : specMP pat pat.length = 0 := by
  unfold specMP
  rw [show pat.length + 1 - pat.length = 1 by omega]
  rw [show List.range' pat.length 1 = [pat.length] from rfl]
  rw [List.foldr_cons, List.foldr_nil]
  split <;> omega

/-- A suffix of the pattern is one of its prefixes exactly when its
(maximal) Z-value reaches the end of the pattern. -/
theorem prefix_iff_zok (pat : List Char) (i vn : Nat) (hi1 : 1 ≤ i)
    (hi2 : i < pat.length) (hok : ZOk pat i vn) :
    (pat.drop i <+: pat) ↔ i + vn = pat.length := by
  obtain ⟨hbound, hmatch, hmax⟩ := hok
  constructor
  · intro hpre
    by_contra hne
    have hlt : i + vn < pat.length := by omega
    have hmax' : pat.get? vn ≠ pat.get? (i + vn) := by
      rcases hmax with h | h
      · omega
      · exact h
    rw [List.prefix_iff_eq_take] at hpre
    have hdl : (pat.drop i).length = pat.length - i := List.length_drop i pat
    have hget : (pat.drop i).get? vn = (pat.take (pat.length - i)).get? vn := by
      rw [hdl] at hpre
      rw [← hpre]
    rw [List.get?_eq_getElem?, List.get?_eq_getElem?, List.getElem?_drop,
      List.getElem?_take, if_pos (by omega)] at hget
    rw [← List.get?_eq_getElem?, ← List.get?_eq_getElem?] at hget
    exact hmax' (hget.symm)
  · intro heq
    rw [List.prefix_iff_eq_take]
    have hdl : (pat.drop i).length = pat.length - i := List.length_drop i pat
    rw [hdl]
    apply List.ext_get?
    intro t
    rw [List.get?_eq_getElem?, List.get?_eq_getElem?, List.getElem?_drop,
      List.getElem?_take]
    by_cases ht : t < pat.length - i
    · rw [if_pos ht, ← List.get?_eq_getElem?, ← List.get?_eq_getElem?]
      exact (hmatch t (by omega)).symm
    · rw [if_neg ht, ← List.get?_eq_getElem?, List.get?_eq_none.2 (by omega)]

theorem mp_fold (pat : List Char) (z : List Int)
    (hz0 : z.get? 0 = some (-1))
    (hzprop : ∀ i : Nat, 1 ≤ i → i < pat.length →
      ∃ vn : Nat, z.get? i = some ((vn : Int)) ∧ ZOk pat i vn) :
    ∀ (i : Nat), i ≤ pat.length → ∀ (arr : List Int), arr.length = pat.length + 1 →
      (∀ j : Nat, i ≤ j → 1 ≤ j → j ≤ pat.length →
        arr.get? j = some ((specMP pat j : Int))) →
      ∃ arr', (List.range i).reverse.foldlM
          (fun arr (i : Nat) => do
            let zi ← pyGet z (i : Int)
            if (i : Int) + zi = (pat.length : Int) then
              pySet arr (i : Int) zi
            else do
              let v ← pyGet arr ((i : Int) + 1)
              pySet arr (i : Int) v) arr = some arr' ∧
        arr'.length = pat.length + 1 ∧
        ∀ j : Nat, 1 ≤ j → j ≤ pat.length →
          arr'.get? j = some ((specMP pat j : Int))
  | 0, hi, arr, hlen, hprop => by
    refine ⟨arr, by rw [List.range_zero, List.reverse_nil, List.foldlM_nil]; rfl,
      hlen, ?_⟩
    intro j h1 h2
    exact hprop j (by omega) h1 h2
  | i + 1, hi, arr, hlen, hprop => by
    have hstep : ∀ (arr1 : List Int), arr1.length = pat.length + 1 →
        (∀ j : Nat, i ≤ j → 1 ≤ j → j ≤ pat.length →
          arr1.get? j = some ((specMP pat j : Int))) →
        ∃ arr', (List.range i).reverse.foldlM
            (fun arr (i : Nat) => do
              let zi ← pyGet z (i : Int)
              if (i : Int) + zi = (pat.length : Int) then
                pySet arr (i : Int) zi
              else do
                let v ← pyGet arr ((i : Int) + 1)
                pySet arr (i : Int) v) arr1 = some arr' ∧
          arr'.length = pat.length + 1 ∧
          ∀ j : Nat, 1 ≤ j → j ≤ pat.length →
            arr'.get? j = some ((specMP pat j : Int)) :=
      fun arr1 h1 h2 => mp_fold pat z hz0 hzprop i (by omega) arr1 h1 h2
    rw [List.range_succ, List.reverse_append, List.reverse_singleton,
      List.singleton_append, List.foldlM_cons]
    by_cases hi0 : i = 0
    · subst hi0
      have hm1 : 1 ≤ pat.length := by omega
      have hpy0 : pyGet z (((0 : Nat)) : Int) = some (-1) := by
        rw [pyGet_ofNat]
        exact hz0
      rw [hpy0]
      simp only [Option.bind_eq_bind, Option.some_bind]
      rw [if_neg (by omega)]
      have hget1 : pyGet arr ((((0 : Nat)) : Int) + 1) = some ((specMP pat 1 : Int)) := by
        rw [show ((((0 : Nat)) : Int) + 1) = (((1 : Nat)) : Int) by norm_num, pyGet_ofNat]
        exact hprop 1 (by omega) (by omega) (by omega)
      rw [hget1]
      simp only [Option.some_bind]
      have hset := pySet_eq arr (((0 : Nat)) : Int) ((specMP pat 1 : Int)) (by omega)
        (by rw [hlen]; exact_mod_cast by omega)
      rw [hset]
      simp only [Option.some_bind]
      apply hstep
      · rw [List.length_set]
        exact hlen
      · intro j h1 h2 h3
        obtain ⟨-, hne⟩ := pySet_get? arr (((0 : Nat)) : Int) ((specMP pat 1 : Int))
          _ (by omega) hset
        rw [hne j (by omega)]
        exact hprop j (by omega) h2 h3
    · have hi1 : 1 ≤ i := by omega
      have him : i < pat.length := by omega
      obtain ⟨vn, hvn, hok⟩ := hzprop i hi1 him
      have hpyi : pyGet z ((i : Nat) : Int) = some ((vn : Int)) := by
        rw [pyGet_ofNat]
        exact hvn
      rw [hpyi]
      simp only [Option.bind_eq_bind, Option.some_bind]
      have hpre := prefix_iff_zok pat i vn hi1 him hok
      by_cases hcond : ((i : Nat) : Int) + ((vn : Nat) : Int) = ((pat.length : Nat) : Int)
      · rw [if_pos hcond]
        have hcondn : i + vn = pat.length := by exact_mod_cast hcond
        have hspec : specMP pat i = vn := by
          rw [specMP_step pat i (by omega)]
          rw [if_pos (List.isPrefixOf_iff_prefix.mpr (hpre.mpr hcondn))]
          omega
        have hset := pySet_eq arr ((i : Nat) : Int) ((vn : Nat) : Int) (by omega)
          (by rw [hlen]; exact_mod_cast by omega)
        rw [hset]
        simp only [Option.some_bind]
        apply hstep
        · rw [List.length_set]
          exact hlen
        · intro j h1 h2 h3
          obtain ⟨heq, hne⟩ := pySet_get? arr ((i : Nat) : Int) ((vn : Nat) : Int)
            _ (by omega) hset
          by_cases hji : j = i
          · subst hji
            rw [show (((j : Nat) : Int)).toNat = j by omega] at heq ⊢
            rw [heq, hspec]
          · rw [hne j (by omega)]
            exact hprop j (by omega) h2 h3
      · rw [if_neg hcond]
        have hcondn : ¬ i + vn = pat.length := by
          intro h
          exact hcond (by exact_mod_cast h)
        have hspec : specMP pat i = specMP pat (i + 1) := by
          rw [specMP_step pat i (by omega)]
          rw [if_neg]
          intro hpf
          exact hcondn (hpre.mp (List.isPrefixOf_iff_prefix.mp hpf))
        have hget1 : pyGet arr (((i : Nat) : Int) + 1)
            = some ((specMP pat (i + 1) : Int)) := by
          rw [show (((i : Nat) : Int) + 1) = (((i + 1 : Nat)) : Int) by push_cast; ring,
            pyGet_ofNat]
          exact hprop (i + 1) (by omega) (by omega) (by omega)
        rw [hget1]
        simp only [Option.some_bind]
        have hset := pySet_eq arr ((i : Nat) : Int) ((specMP pat (i + 1) : Int))
          (by omega) (by rw [hlen]; exact_mod_cast by omega)
        rw [hset]
        simp only [Option.some_bind]
        apply hstep
        · rw [List.length_set]
          exact hlen
        · intro j h1 h2 h3
          obtain ⟨heq, hne⟩ := pySet_get? arr ((i : Nat) : Int)
            ((specMP pat (i + 1) : Int)) _ (by omega) hset
          by_cases hji : j = i
          · subst hji
            rw [show (((j : Nat) : Int)).toNat = j by omega] at heq ⊢
            rw [heq, hspec]
          · rw [hne j (by omega)]
            exact hprop j (by omega) h2 h3

/-- `matched_prefix` on a non-empty pattern succeeds and computes `specMP`
at every index. -/
theorem matched_prefix_arr_spec (pat : List Char) (hpat : pat ≠ []) :
    ∃ a, matched_prefix_arr pat = some a ∧ a.length = pat.length + 1 ∧
      a.get? 0 = some ((pat.length : Int)) ∧
      ∀ i : Nat, i ≤ pat.length → a.get? i = some ((specMP pat i : Int)) := by
  have hm1 : 1 ≤ pat.length := List.length_pos.mpr hpat
  obtain ⟨z, hz, hzlen, hz0, hzprop⟩ := z_algorithm_spec pat hpat
  simp only [matched_prefix_arr]
  rw [hz]
  simp only [Option.bind_eq_bind, Option.some_bind]
  have hinit : ∀ j : Nat, pat.length ≤ j → 1 ≤ j → j ≤ pat.length →
      (List.replicate (pat.length + 1) (0 : Int)).get? j
        = some ((specMP pat j : Int)) := by
    intro j h1 h2 h3
    have hj : j = pat.length := by omega
    subst hj
    rw [List.get?_eq_getElem?, List.getElem?_replicate, if_pos (by omega)]
    rw [specMP_last]
    norm_num
  obtain ⟨arr', hfold, hlen', hprop'⟩ := mp_fold pat z hz0 hzprop pat.length
    (le_refl _) (List.replicate (pat.length + 1) 0) (by simp) hinit
  simp only [Option.bind_eq_bind] at hfold
  rw [hfold]
  simp only [Option.some_bind]
  have hset := pySet_eq arr' 0 ((pat.length : Nat) : Int) (le_refl _)
    (by rw [hlen']; exact_mod_cast by omega)
  simp only [Int.toNat_zero] at hset
  rw [hset]
  have hspec0 : specMP pat 0 = pat.length := by
    rw [specMP_step pat 0 (by omega)]
    rw [List.drop_zero, if_pos (List.isPrefixOf_iff_prefix.mpr (List.prefix_refl pat))]
    omega
  obtain ⟨heq0, hne0⟩ := pySet_get? arr' 0 ((pat.length : Nat) : Int) _ (le_refl _) hset
  simp only [Int.toNat_zero] at heq0
  refine ⟨_, rfl, by rw [List.length_set]; exact hlen', heq0, ?_⟩
  intro i hi
  by_cases hi0 : i = 0
  · subst hi0
    rw [heq0, hspec0]
  · rw [hne0 i (by omega)]
    exact hprop' i (by omega) hi

/-- C6: for every non-empty pattern `P` of length `m`, `matched_prefix`
succeeds and returns an array of length `m + 1` whose entry `i` (for
`0 ≤ i ≤ m`) is the length of the longest suffix of `P[i:]` that equals a
prefix of the whole pattern (`specMP`); in particular entry 0 equals `m`. -/
theorem c6_matched_prefix_spec (pat : List Char) (hpat : pat ≠ []) :
    ∃ a, matched_prefix_arr pat = some a ∧ a.length = pat.length + 1 ∧
      a.get? 0 = some ((pat.length : Int)) ∧
      ∀ i : Nat, i ≤ pat.length → a.get? i = some ((specMP pat i : Int)) :=
  matched_prefix_arr_spec pat hpat

theorem c6_witness :
    ∃ a, matched_prefix_arr "acababacaba".toList = some a ∧
      a.length = "acababacaba".toList.length + 1 ∧
      a.get? 0 = some (("acababacaba".toList.length : Int)) ∧
      ∀ i : Nat, i ≤ "acababacaba".toList.length →
        a.get? i = some ((specMP "acababacaba".toList i : Int)) :=
  c6_matched_prefix_spec "acababacaba".toList (by decide)

/-! ## Totality of the preprocessing tables and the amended C9 -/

theorem foldlM_total_inv {σ β : Type} (f : σ → β → Option σ) (P : σ → Prop) :
    ∀ (l : List β), (∀ s b, b ∈ l → P s → ∃ s', f s b = some s' ∧ P s') →
      ∀ s, P s → ∃ s', l.foldlM f s = some s' ∧ P s'
  | [], _, s, hP => ⟨s, by rw [List.foldlM_nil]; rfl, hP⟩
  | b :: t, hstep, s, hP => by
    obtain ⟨s1, hfb, hP1⟩ := hstep s b (List.mem_cons_self b t) hP
    obtain ⟨s', hfold, hP'⟩ := foldlM_total_inv f P t
      (fun s b hb => hstep s b (List.mem_cons_of_mem _ hb)) s1 hP1
    refine ⟨s', ?_, hP'⟩
    rw [List.foldlM_cons, hfb]
    simpa using hfold

/-- The row-building fold of `extended_bad_char` succeeds on an all-ASCII
pattern: each step reads the previous row (present, since the array length
tracks the loop index) and writes inside its 128 cells. -/
theorem ebc_fold_total (pat : List Char) (hascii : ∀ c ∈ pat, c.toNat < 128) :
    ∀ (cnt i0 : Nat) (arr : List (List Int)), 1 ≤ i0 → i0 + cnt ≤ pat.length →
      arr.length = i0 → (∀ row ∈ arr, row.length = 128) →
      ∃ arr', (List.range' i0 cnt).foldlM
          (fun arr (i : Nat) => do
            let prev ← pyGet arr ((i : Int) - 1)
            let c ← pyGet pat ((i : Int) - 1)
            let row ← pySet prev (pyOrd c) ((i : Int) - 1)
            pure (arr ++ [row])) arr = some arr' ∧
        arr'.length = i0 + cnt ∧ ∀ row ∈ arr', row.length = 128
  | 0, i0, arr, _, _, hlen, hrows =>
    ⟨arr, by rw [List.range'_zero, List.foldlM_nil]; rfl, by omega, hrows⟩
  | cnt + 1, i0, arr, hi0, hbound, hlen, hrows => by
    have hidx : ((i0 : Int) - 1).toNat = i0 - 1 := by omega
    have hprevlt : i0 - 1 < arr.length := by omega
    have hprev : pyGet arr ((i0 : Int) - 1) = some (arr.get ⟨i0 - 1, hprevlt⟩) := by
      rw [pyGet_nonneg arr _ (by omega), hidx, List.get?_eq_get hprevlt]
    have hclt : i0 - 1 < pat.length := by omega
    have hc : pyGet pat ((i0 : Int) - 1) = some (pat.get ⟨i0 - 1, hclt⟩) := by
      rw [pyGet_nonneg pat _ (by omega), hidx, List.get?_eq_get hclt]
    have hprevrow : (arr.get ⟨i0 - 1, hprevlt⟩).length = 128 :=
      hrows _ (List.get_mem arr (i0 - 1) hprevlt)
    have hcord : (pat.get ⟨i0 - 1, hclt⟩).toNat < 128 :=
      hascii _ (List.get_mem pat (i0 - 1) hclt)
    have hrow : pySet (arr.get ⟨i0 - 1, hprevlt⟩) (pyOrd (pat.get ⟨i0 - 1, hclt⟩))
        ((i0 : Int) - 1)
        = some ((arr.get ⟨i0 - 1, hprevlt⟩).set
            (pyOrd (pat.get ⟨i0 - 1, hclt⟩)).toNat ((i0 : Int) - 1)) := by
      apply pySet_eq
      · simp [pyOrd]
      · rw [hprevrow]
        simp only [pyOrd]
        exact_mod_cast hcord
    have hrows1 : ∀ row ∈ arr ++ [(arr.get ⟨i0 - 1, hprevlt⟩).set
        (pyOrd (pat.get ⟨i0 - 1, hclt⟩)).toNat ((i0 : Int) - 1)],
        row.length = 128 := by
      intro row hr
      rcases List.mem_append.1 hr with h | h
      · exact hrows row h
      · rw [List.mem_singleton.1 h, List.length_set]
        exact hprevrow
    obtain ⟨arr', hfold, hlen', hrows'⟩ := ebc_fold_total pat hascii cnt (i0 + 1)
      (arr ++ [(arr.get ⟨i0 - 1, hprevlt⟩).set
        (pyOrd (pat.get ⟨i0 - 1, hclt⟩)).toNat ((i0 : Int) - 1)])
      (by omega) (by omega) (by rw [List.length_append]; simp; omega) hrows1
    refine ⟨arr', ?_, by omega, hrows'⟩
    rw [List.range'_succ, List.foldlM_cons]
    simp only [Option.bind_eq_bind, hprev, Option.some_bind, hc, hrow]
    simpa using hfold

/-- `extended_bad_char` succeeds on every non-empty all-ASCII pattern. -/
theorem ebc_total (pat : List Char) (hpat : pat ≠ [])
    (hascii : ∀ c ∈ pat, c.toNat < 128) :
    ∃ T, extended_bad_char pat = some T := by
  have hm : 1 ≤ pat.length := List.length_pos.mpr hpat
  unfold extended_bad_char
  obtain ⟨arr', hfold, -, -⟩ := ebc_fold_total pat hascii (pat.length - 1) 1
    [List.replicate ASCII_SIZE NAN] (le_refl _) (by omega) (by simp)
    (by intro row hr
        rw [List.mem_singleton.1 hr, List.length_replicate]
        rfl)
  exact ⟨arr', hfold⟩

/-- `reversed_ext_bad_char` succeeds on every non-empty all-ASCII pattern. -/
theorem rebc_total (pat : List Char) (hpat : pat ≠ [])
    (hascii : ∀ c ∈ pat, c.toNat < 128) :
    ∃ T, reversed_ext_bad_char pat = some T := by
  obtain ⟨T, hT⟩ := ebc_total pat.reverse (by simpa using hpat)
    (fun c hc => hascii c (List.mem_reverse.1 hc))
  exact ⟨T.reverse, by simp only [reversed_ext_bad_char]; rw [hT]; rfl⟩

/-- `good_suffix` succeeds on every non-empty pattern: the Z-values of the
reversed pattern are bounded, so every write lands inside the
`m + 1`-entry array. -/
theorem gs_total (pat : List Char) (hpat : pat ≠ []) :
    ∃ g, good_suffix pat = some g ∧ g.length = pat.length + 1 := by
  have hm1 : 1 ≤ pat.length := List.length_pos.mpr hpat
  obtain ⟨z, hz, hzlen, hz0, hzprop⟩ := z_algorithm_spec pat.reverse (by simpa using hpat)
  rw [List.length_reverse] at hzlen
  simp only [good_suffix]
  rw [hz]
  simp only [Option.bind_eq_bind, Option.some_bind]
  have hstep : ∀ (s : List Int) (b : Nat), b ∈ List.range (pat.length - 1) →
      s.length = pat.length + 1 →
      ∃ s', (do
          let v ← pyGet z.reverse ((b : Nat) : Int)
          let j : Int := (pat.length : Int) - v
          pySet s j ((b : Nat) : Int)) = some s' ∧
        s'.length = pat.length + 1 := by
    intro s b hb hP
    have hblt : b < pat.length - 1 := List.mem_range.1 hb
    have hidx : z.reverse.get? b = z.get? (pat.length - 1 - b) := by
      rw [List.get?_eq_getElem?, List.get?_eq_getElem?,
        List.getElem?_reverse (by rw [hzlen]; omega)]
      rw [hzlen]
    obtain ⟨vn, hvn, hZ⟩ := hzprop (pat.length - 1 - b) (by omega)
      (by rw [List.length_reverse]; omega)
    have hvnb : vn ≤ b + 1 := by
      have h1 := hZ.1
      rw [List.length_reverse] at h1
      omega
    have hget : pyGet z.reverse (b : Int) = some ((vn : Int)) := by
      rw [pyGet_nonneg _ _ (by omega), show ((b : Nat) : Int).toNat = b by omega,
        hidx]
      exact hvn
    have hset := pySet_eq s ((pat.length : Int) - (vn : Int)) ((b : Nat) : Int)
      (by omega) (by rw [hP]; push_cast; omega)
    refine ⟨s.set ((pat.length : Int) - (vn : Int)).toNat ((b : Nat) : Int), ?_, ?_⟩
    · simp only [hget, Option.bind_eq_bind, Option.some_bind]
      exact hset
    · rw [List.length_set]
      exact hP
  exact foldlM_total_inv _ (fun (s : List Int) => s.length = pat.length + 1)
    (List.range (pat.length - 1)) hstep (List.replicate (pat.length + 1) NAN)
    (by simp)

/-- `reversed_good_suffix` succeeds on every non-empty pattern. -/
theorem rgs_total (pat : List Char) (hpat : pat ≠ []) :
    ∃ g, reversed_good_suffix pat = some g := by
  obtain ⟨g, hg, -⟩ := gs_total pat.reverse (by simpa using hpat)
  exact ⟨g.reverse, by simp only [reversed_good_suffix]; rw [hg]; rfl⟩

/-- `reversed_matched_prefix` succeeds on every non-empty pattern. -/
theorem rmp_total (pat : List Char) (hpat : pat ≠ []) :
    ∃ a, reversed_matched_prefix_arr pat = some a := by
  obtain ⟨a, ha, -, -, -⟩ := matched_prefix_arr_spec pat.reverse (by simpa using hpat)
  exact ⟨a.reverse, by simp only [reversed_matched_prefix_arr]; rw [ha]; rfl⟩

/-- A pattern longer than the text has no occurrences. -/
theorem occurrencesSpec_short (T P : List Char) (h : T.length < P.length) :
    occurrencesSpec T P = [] := by
  unfold occurrencesSpec
  apply List.filter_eq_nil_iff.2
  intro i hi hcontra
  simp only [Bool.and_eq_true, decide_eq_true_eq] at hcontra
  exact absurd hcontra.1 (by omega)

/-- C9 (amended): for a non-empty pattern `P` whose symbols are all ASCII
(code points below 128) and a text `T` shorter than `P`, both matchers
raise no error and return the empty occurrence sequence: the preprocessing
tables all build successfully, the Boyer-Moore scan breaks out before its
first alignment, and the bit-parallel scan never clears bit 0.  (The
all-ASCII restriction is forced by the counterexample: a non-ASCII pattern
symbol crashes the bad-character preprocessing regardless of lengths.) -/
theorem c9_amended (T P : List Char) (hpat : P ≠ [])
    (hascii : ∀ c ∈ P, c.toNat < 128) (hlen : T.length < P.length) :
    reversed_boyer_moore T P = some [] ∧ bitvector_pat_match T P = some [] := by
  constructor
  · obtain ⟨bc, hbc⟩ := rebc_total P hpat hascii
    obtain ⟨gs, hgs⟩ := rgs_total P hpat
    obtain ⟨mp, hmp⟩ := rmp_total P hpat
    simp only [reversed_boyer_moore]
    rw [hbc, hgs, hmp]
    simp only [Option.bind_eq_bind, Option.some_bind]
    rw [show T.length + 2 = (T.length + 1) + 1 from rfl, bmLoop_succ]
    rw [if_pos (by omega)]
  · rw [bitvector_occ_spec T P hpat, occurrencesSpec_short T P hlen]
    rfl

theorem c9_amended_witness :
    "ab".toList ≠ ([] : List Char) ∧ (∀ c ∈ "ab".toList, c.toNat < 128) ∧
    "a".toList.length < "ab".toList.length ∧
    (reversed_boyer_moore "a".toList "ab".toList = some [] ∧
      bitvector_pat_match "a".toList "ab".toList = some []) :=
  ⟨by decide, by decide, by decide,
    c9_amended "a".toList "ab".toList (by decide) (by decide) (by decide)⟩
